import Mathlib

/-!
Verification of the quantomate core trading engine against its
natural-language specification.

The TypeScript sources under `packages/core` and `packages/indicators` are
shallowly embedded below.  JavaScript numbers are modelled by `JSNum`
(rationals plus the NaN / ±Infinity sentinels), `TradePosition` metadata by an
association list mirroring JS object spread semantics, and the columnar store,
dataset pipeline, strategy evaluator and backtest ledger by explicit state
passing.  All definitions are executable, and theorems are stated over them.
-/

set_option maxRecDepth 10000

namespace Quantomate

/-- A JavaScript number: a rational, or one of the IEEE sentinels NaN,
+Infinity, -Infinity (floating point rounding is not modelled; every claim
here is about exact branch behaviour, and the spec's 1e-9 tolerance is
subsumed by exact equality over ℚ). -/
inductive JSNum where
  | nan
  | inf
  | ninf
  | num (q : ℚ)
deriving DecidableEq, Repr

/-- JavaScript `isNaN`. -/
def JSNum.isNaN : JSNum → Bool
  | .nan => true
  | _ => false

/-- The `exitReason` string-literal union `'stop-loss' | 'take-profit' |
'strategy'` from `position.ts`, embedded as an inductive. -/
inductive ExitReason where
  | stopLoss
  | takeProfit
  | strategy
deriving DecidableEq, Repr

/-- Keys of `TradePositionOptions` (`position.ts`): the declared fields
`short`, `entryPrice`, `entryDate`, `exitReason`, plus `user n` standing for
the arbitrary extra fields allowed by the `O` type parameter. -/
inductive MetaKey where
  | short
  | entryPrice
  | entryDate
  | exitReason
  | user (n : ℕ)
deriving DecidableEq, Repr

/-- A metadata value.  `undefv` models a key that is present on the JS object
but set to `undefined` (JS object spread copies such keys, so presence with
`undefined` is observable and must be distinguished from absence). -/
inductive MetaVal where
  | undefv
  | boolv (b : Bool)
  | numv (q : ℚ)
  | datev (t : ℕ)
  | reason (r : ExitReason)
deriving DecidableEq, Repr

/-- JS truthiness of a metadata value (used by `!!position.options?.short`). -/
def MetaVal.truthy : MetaVal → Bool
  | .undefv => false
  | .boolv b => b
  | .numv q => q ≠ 0
  | .datev _ => true
  | .reason _ => true

/-- `TradePositionOptions` as a JS object: an association list from keys to
values; a key absent from the list is absent from the object. -/
abbrev Metadata := List (MetaKey × MetaVal)

/-- Key presence (JS `key in obj`). -/
def Metadata.hasKey (m : Metadata) (k : MetaKey) : Bool :=
  m.any (fun p => p.1 = k)

/-- Property read returning `Option` (none = key absent). -/
def Metadata.find (m : Metadata) (k : MetaKey) : Option MetaVal :=
  match m with
  | [] => none
  | p :: rest => if p.1 = k then some p.2 else Metadata.find rest k

/-- JS optional-chained read `obj?.k`: an absent key and a key holding
`undefined` both read as `undefined`. -/
def Metadata.read (m : Metadata) (k : MetaKey) : MetaVal :=
  (m.find k).getD .undefv

/-- JS object spread `{...old, ...new}`: every key of `new` (even one whose
value is `undefined`) overrides the matching key of `old`; the remaining keys
of `old` persist. -/
def mergeMeta (old new : Metadata) : Metadata :=
  old.filter (fun p => ! new.hasKey p.1) ++ new

/-- `TradePositionType` from `position.ts`. -/
inductive TradePositionType where
  | idle
  | entry
  | exit
  | hold
deriving DecidableEq, Repr

/-- The `newTradingPositionMap` transition table from `position.ts`,
row = current position, column = decision signalled by the strategy. -/
def newTradingPositionMap : TradePositionType → TradePositionType → TradePositionType
  | .idle, .idle => .idle
  | .idle, .entry => .entry
  | .idle, .exit => .idle
  | .idle, .hold => .idle
  | .entry, .idle => .hold
  | .entry, .entry => .hold
  | .entry, .exit => .exit
  | .entry, .hold => .hold
  | .exit, .idle => .idle
  | .exit, .entry => .entry
  | .exit, .exit => .idle
  | .exit, .hold => .idle
  | .hold, .idle => .hold
  | .hold, .entry => .hold
  | .hold, .exit => .exit
  | .hold, .hold => .hold

/-- `TradePosition` from `position.ts`: a kind plus metadata.  A JS
`TradePosition` constructed without options is modelled by empty metadata. -/
structure TradePosition where
  value : TradePositionType
  options : Metadata
deriving DecidableEq, Repr

/-- `TradePosition.update` (`position.ts`): the next kind comes from the
transition table and the metadata of both positions are spread-merged
(`{...oldPosition._options, ...newPosition.options}`) into a fresh value. -/
def TradePosition.update (oldPosition newPosition : TradePosition) : TradePosition :=
  { value := newTradingPositionMap oldPosition.value newPosition.value
    options := mergeMeta oldPosition.options newPosition.options }

/-- `StrategyValue` from `strategy.ts`: a wrapper holding the position
produced for a row. -/
structure StrategyValue where
  position : TradePosition
deriving DecidableEq, Repr

/-- The long/short predicate pair of `StrategyOptions` (`strategy.ts`): a
strategy configures exactly one of `{entryWhen, exitWhen}` or
`{entryShortWhen, exitShortWhen}`.  `Q` is the quote type; predicates receive
the quote opaquely. -/
inductive PositionPredicates (Q : Type) where
  | long (entryWhen exitWhen : Q → Bool)
  | short (entryShortWhen exitShortWhen : Q → Bool)

/-- `StrategyOptions` (`strategy.ts`).  The `indicators` list and the
`onTrigger` observer are omitted: the observer returns `void` and cannot
influence the produced position, and indicator registration is handled at the
dataset level. -/
structure StrategyOptions (Q : Type) where
  predicates : PositionPredicates Q
  stopLossWhen : Option (Q → TradePosition → Bool)
  takeProfitWhen : Option (Q → TradePosition → Bool)

/-- `isShortPosition` (`strategy.ts`): `!!position.options?.short`. -/
def isShortPosition (position : TradePosition) : Bool :=
  (position.options.read .short).truthy

/-- JS optional call `fn?.(quote, position)` for a risk predicate: a missing
predicate reads as `undefined`, which is falsy. -/
def riskCheck {Q : Type} (fn : Option (Q → TradePosition → Bool))
    (quote : Q) (position : TradePosition) : Bool :=
  match fn with
  | none => false
  | some f => f quote position

/-- The entry/exit predicate pair `Strategy.apply` selects: the `short` flag
of the position's metadata picks the short pair, otherwise the long pair.
`none` models the JS `TypeError` raised when the flag points at the pair the
strategy was not configured with. -/
def selectedPredicates {Q : Type} (opts : StrategyOptions Q)
    (position : TradePosition) : Option ((Q → Bool) × (Q → Bool)) :=
  match isShortPosition position, opts.predicates with
  | true, .short entryShortWhen exitShortWhen => some (entryShortWhen, exitShortWhen)
  | false, .long entryWhen exitWhen => some (entryWhen, exitWhen)
  | _, _ => none

/-- `Strategy.apply` (`strategy.ts`): stop-loss first, then take-profit, then
the strategy's own exit/entry predicates, then the transition table.  The two
risk branches return an `exit` position directly; the final branch goes
through `TradePosition.update`. -/
def Strategy.apply {Q : Type} (opts : StrategyOptions Q) (quote : Q)
    (position : TradePosition) : Option StrategyValue :=
  if (position.value = .hold ∨ position.value = .entry) ∧
      riskCheck opts.stopLossWhen quote position then
    some ⟨⟨.exit, mergeMeta position.options [(.exitReason, .reason .stopLoss)]⟩⟩
  else if (position.value = .hold ∨ position.value = .entry) ∧
      riskCheck opts.takeProfitWhen quote position then
    some ⟨⟨.exit, mergeMeta position.options [(.exitReason, .reason .takeProfit)]⟩⟩
  else
    match selectedPredicates opts position with
    | none => none
    | some (entryFn, exitFn) =>
      let newPositionValue : TradePositionType :=
        if (position.value = .hold ∨ position.value = .entry) ∧ exitFn quote then .exit
        else if entryFn quote then .entry
        else .idle
      let newPos : TradePosition :=
        ⟨newPositionValue,
          mergeMeta position.options
            [(.exitReason, if newPositionValue = .exit then .reason .strategy else .undefv)]⟩
      some ⟨TradePosition.update position newPos⟩

/-- Trade log entry type tag (`backtestReport.ts`). -/
inductive TradeType where
  | entry
  | exit
deriving DecidableEq, Repr

/-- A `BacktestReportTrades` entry (`backtestReport.ts`).  The entry push has
no `exitReason` key, modelled as `.undefv`; the `quote` and `exitContext`
fields are omitted (the latter is built from the wall clock and is pure
instrumentation). -/
structure TradeRec where
  type : TradeType
  tradedValue : ℚ
  shares : ℚ
  currentCapital : ℚ
  exitReason : MetaVal
deriving DecidableEq, Repr

/-- `BacktestReport` (`backtestReport.ts`): the capital/shares ledger. -/
structure BacktestReport where
  currentCapital : ℚ
  sharesOwned : ℚ
  profit : ℚ
  loss : ℚ
  numberOfTrades : ℕ
  numberOfLosingTrades : ℕ
  numberOfWinningTrades : ℕ
  initialCapital : ℚ
  finalCapital : ℚ
  returns : ℚ
  returnsPercentage : ℚ
  winningRate : ℚ
  trades : List TradeRec
  stopLossExits : ℕ
  takeProfitExits : ℕ
  strategyExits : ℕ
deriving DecidableEq, Repr

/-- The `BacktestReport` constructor. -/
def BacktestReport.init (initialCapital : ℚ) : BacktestReport where
  currentCapital := initialCapital
  sharesOwned := 0
  profit := 0
  loss := 0
  numberOfTrades := 0
  numberOfLosingTrades := 0
  numberOfWinningTrades := 0
  initialCapital := initialCapital
  finalCapital := initialCapital
  returns := 0
  returnsPercentage := 0
  winningRate := 0
  trades := []
  stopLossExits := 0
  takeProfitExits := 0
  strategyExits := 0

/-- `BacktestReport.markEntry`: buys with all available capital
(`shares = finalCapital / tradedValue`, capital drops to 0) and logs the
trade.  Neither `currentCapital` nor `numberOfTrades` changes. -/
def BacktestReport.markEntry (r : BacktestReport) (tradedValue : ℚ) : BacktestReport :=
  let shares := r.finalCapital / tradedValue
  { r with
    sharesOwned := shares
    finalCapital := 0
    trades := r.trades ++ [⟨.entry, tradedValue, shares, 0, .undefv⟩] }

/-- `BacktestReport.markExit`: reads the position's `exitReason` and bumps the
matching counter, replaces the capital by `proceeds = sharesOwned *
tradedValue`, classifies the trade as won iff the proceeds exceed the capital
before the trade, recomputes the winning rate, resets the shares, and updates
the totals (`returns`, `returnsPercentage`, `numberOfTrades`).  The source
reads the position from `quote.getStrategy(strategyName)`; the embedding takes
that stored position directly. -/
def BacktestReport.markExit (r : BacktestReport) (tradedValue : ℚ)
    (position : TradePosition) : BacktestReport :=
  let exitReason := position.options.read .exitReason
  let stopLossExits :=
    if exitReason = .reason .stopLoss then r.stopLossExits + 1 else r.stopLossExits
  let takeProfitExits :=
    if exitReason = .reason .takeProfit then r.takeProfitExits + 1 else r.takeProfitExits
  let strategyExits :=
    if exitReason = .reason .strategy then r.strategyExits + 1 else r.strategyExits
  let proceeds := r.sharesOwned * tradedValue
  let trades := r.trades ++ [⟨.exit, tradedValue, r.sharesOwned, proceeds, exitReason⟩]
  let hasWon : Bool := r.currentCapital < proceeds
  let profit := if hasWon then r.profit + (proceeds - r.currentCapital) else r.profit
  let numberOfWinningTrades :=
    if hasWon then r.numberOfWinningTrades + 1 else r.numberOfWinningTrades
  let loss := if hasWon then r.loss else r.loss + (r.currentCapital - proceeds)
  let numberOfLosingTrades :=
    if hasWon then r.numberOfLosingTrades else r.numberOfLosingTrades + 1
  { currentCapital := proceeds
    sharesOwned := 0
    profit := profit
    loss := loss
    numberOfTrades := r.numberOfTrades + 1
    numberOfLosingTrades := numberOfLosingTrades
    numberOfWinningTrades := numberOfWinningTrades
    initialCapital := r.initialCapital
    finalCapital := proceeds
    returns := proceeds - r.initialCapital
    returnsPercentage := (proceeds - r.initialCapital) * 100 / r.initialCapital
    winningRate :=
      (numberOfWinningTrades : ℚ) / ((numberOfWinningTrades : ℚ) + (numberOfLosingTrades : ℚ))
    trades := trades
    stopLossExits := stopLossExits
    takeProfitExits := takeProfitExits
    strategyExits := strategyExits }

/-- One iteration of the `Backtest.run` loop (`backtest.ts`): at the last row
with an open (entry or hold) position an exit is forced at the exit trigger
price; otherwise an entry position buys at the entry trigger price and an
exit position sells at the exit trigger price; idle and hold rows leave the
report unchanged.  `onEntry`/`onExit` abstract the `BacktestTrigger`
callbacks as functions of the row index.  The source's write-back of
`entryPrice`/`entryDate` metadata onto the freshly created quote object is
omitted: that quote is created on the fly by `Dataset.at` and the mutation is
not observable through the report. -/
def Backtest.runStep (n : ℕ) (onEntry onExit : ℕ → ℚ) (i : ℕ)
    (position : TradePosition) (r : BacktestReport) : BacktestReport :=
  if i = n - 1 ∧ (position.value = .entry ∨ position.value = .hold) then
    r.markExit (onExit i) position
  else if position.value = .entry then
    r.markEntry (onEntry i)
  else if position.value = .exit then
    r.markExit (onExit i) position
  else
    r

/-- The `Backtest.run` loop from row `i` onwards, threading the report. -/
def Backtest.runFrom (n : ℕ) (onEntry onExit : ℕ → ℚ) :
    List TradePosition → ℕ → BacktestReport → BacktestReport
  | [], _, r => r
  | p :: rest, i, r =>
    Backtest.runFrom n onEntry onExit rest (i + 1) (Backtest.runStep n onEntry onExit i p r)

/-- `Backtest.run` (`backtest.ts`): walks the prepared position column in
order over a fresh report with the configured capital.  `positions` is the
stored position column (`quote.getStrategy(name).position` at each row) of
the prepared dataset. -/
def Backtest.run (positions : List TradePosition) (onEntry onExit : ℕ → ℚ)
    (capital : ℚ) : BacktestReport :=
  Backtest.runFrom positions.length onEntry onExit positions 0 (BacktestReport.init capital)

/-- JS unary minus on a number. -/
def jsNeg : JSNum → JSNum
  | .nan => .nan
  | .inf => .ninf
  | .ninf => .inf
  | .num q => .num (-q)

/-- JS `+` on numbers (IEEE semantics over exact rationals; signed zero and
rounding are not modelled — no claim here depends on them). -/
def jsAdd : JSNum → JSNum → JSNum
  | .nan, _ => .nan
  | _, .nan => .nan
  | .inf, .ninf => .nan
  | .ninf, .inf => .nan
  | .inf, _ => .inf
  | _, .inf => .inf
  | .ninf, _ => .ninf
  | _, .ninf => .ninf
  | .num a, .num b => .num (a + b)

/-- JS `-` on numbers. -/
def jsSub (a b : JSNum) : JSNum := jsAdd a (jsNeg b)

/-- JS `/` on numbers: `0 / 0` and `±Infinity / ±Infinity` are NaN, a nonzero
numerator over zero gives a signed infinity, finite over infinite gives 0. -/
def jsDiv : JSNum → JSNum → JSNum
  | .nan, _ => .nan
  | _, .nan => .nan
  | .inf, .inf => .nan
  | .inf, .ninf => .nan
  | .ninf, .inf => .nan
  | .ninf, .ninf => .nan
  | .inf, .num b => if b < 0 then .ninf else .inf
  | .ninf, .num b => if b < 0 then .inf else .ninf
  | .num _, .inf => .num 0
  | .num _, .ninf => .num 0
  | .num a, .num b =>
    if b = 0 then (if a = 0 then .nan else if a < 0 then .ninf else .inf)
    else .num (a / b)

/-- JS comparison `x > acc` against a possibly infinite accumulator (the
highest-high scans start from `Number.NEGATIVE_INFINITY`). -/
def jsGtNum (x : ℚ) : JSNum → Bool
  | .ninf => true
  | .inf => false
  | .nan => false
  | .num a => decide (a < x)

/-- JS comparison `x < acc` against a possibly infinite accumulator. -/
def jsLtNum (x : ℚ) : JSNum → Bool
  | .inf => true
  | .ninf => false
  | .nan => false
  | .num a => decide (x < a)

/-- The highest-high scan of `calculateStochasticK` / Williams %R over the
last `period` raw values, starting from `Number.NEGATIVE_INFINITY`.  A scalar
dataset's history is a `List ℚ` with the most recent value last. -/
def highestHigh (xs : List ℚ) (period : ℕ) : JSNum :=
  (xs.drop (xs.length - period)).foldl
    (fun acc x => if jsGtNum x acc then JSNum.num x else acc) .ninf

/-- The lowest-low scan, starting from `Number.POSITIVE_INFINITY`. -/
def lowestLow (xs : List ℚ) (period : ℕ) : JSNum :=
  (xs.drop (xs.length - period)).foldl
    (fun acc x => if jsLtNum x acc then JSNum.num x else acc) .inf

/-- `calculateStochasticK` (`stochastic.ts`) on a scalar dataset: NaN below
the window, the neutral 50 when the high-low range is zero, else
`100 * (close - low) / range`.  The catch-all `.nan` is the JS arithmetic on
the untouched infinite accumulators when the window is empty. -/
def calculateStochasticK (xs : List ℚ) (kPeriod : ℕ) : JSNum :=
  if xs.length < kPeriod then .nan
  else
    let currentClose := xs.getLast?.getD 0
    match highestHigh xs kPeriod, lowestLow xs kPeriod with
    | .num h, .num l =>
      if h - l = 0 then .num 50
      else .num (100 * ((currentClose - l) / (h - l)))
    | _, _ => .nan

/-- The Williams %R calculation (`stochastic.ts`, `WilliamsR` class) on a
scalar dataset: NaN below the window, the neutral -50 when the range is zero,
else `-100 * (high - close) / range`. -/
def williamsR (xs : List ℚ) (period : ℕ) : JSNum :=
  if xs.length < period then .nan
  else
    let currentClose := xs.getLast?.getD 0
    match highestHigh xs period, lowestLow xs period with
    | .num h, .num l =>
      if h - l = 0 then .num (-50)
      else .num (-100 * ((h - currentClose) / (h - l)))
    | _, _ => .nan

/-- `calculateTypicalPrice` (`cci.ts`) on a scalar dataset: high, low and
close all read the same raw value. -/
def typicalPrice (xs : List ℚ) (i : ℕ) : ℚ :=
  let x := xs.getD i 0
  (x + x + x) / 3

/-- The CCI calculation (`cci.ts`) on a scalar dataset: NaN below the window;
when the mean deviation is zero the neutral 0; else
`(tp - sma) / (0.015 * meanDeviation)`. -/
def cci (xs : List ℚ) (period : ℕ) : JSNum :=
  if xs.length < period then .nan
  else
    let n := xs.length
    let currentTP := typicalPrice xs (n - 1)
    let window := (List.range period).map (fun j => typicalPrice xs (n - period + j))
    let smaTP := window.sum / (period : ℚ)
    let meanDev := (window.map (fun t => |t - smaTP|)).sum / (period : ℚ)
    if meanDev = 0 then .num 0
    else .num ((currentTP - smaTP) / ((15 / 1000) * meanDev))

/-- The one-step changes of a price history (`xs[i+1] - xs[i]`). -/
def oneStepChanges (xs : List ℚ) : List ℚ :=
  (xs.zip xs.tail).map (fun p => p.2 - p.1)

/-- Modelled from the spec: `getAverageGain` lives in
`packages/indicators/src/utils`, which is not under `src/`; only its calls
from `averageGain.ts` are.  Following the standard average-gain definition
the spec's RSI section presupposes, it is the mean over the most recent
`period` one-step changes of the positive changes (zero-floored).  Claim C6
relies only on its zero-variance behaviour: on a constant history every
change is 0, so the result is `0` (or NaN when `period` is 0). -/
def getAverageGain (xs : List ℚ) (period : ℕ) : JSNum :=
  if period = 0 then .nan
  else
    let changes := oneStepChanges xs
    let recent := changes.drop (changes.length - period)
    .num ((recent.map (fun c => max c 0)).sum / (period : ℚ))

/-- Modelled from the spec: `getAverageLoss`, the mirror of
`getAverageGain` for negative changes (absolute values). -/
def getAverageLoss (xs : List ℚ) (period : ℕ) : JSNum :=
  if period = 0 then .nan
  else
    let changes := oneStepChanges xs
    let recent := changes.drop (changes.length - period)
    .num ((recent.map (fun c => max (-c) 0)).sum / (period : ℚ))

/-- JS `value || NaN` (`averageGain.ts` / `averageLoss.ts` return
`getAverageGain(flattenDataset, period) || NaN`): the falsy numbers 0 and NaN
both collapse to NaN. -/
def jsOrNaN : JSNum → JSNum
  | .num q => if q = 0 then .nan else .num q
  | .inf => .inf
  | .ninf => .ninf
  | .nan => .nan

/-- The `averageGain` indicator cell value (`averageGain.ts`, full
computation): the util's result with falsy values collapsed to NaN. -/
def averageGainFull (xs : List ℚ) (period : ℕ) : JSNum :=
  jsOrNaN (getAverageGain xs period)

/-- The `averageLoss` indicator cell value (`averageLoss.ts`). -/
def averageLossFull (xs : List ℚ) (period : ℕ) : JSNum :=
  jsOrNaN (getAverageLoss xs period)

/-- The RSI core computation (`rsi.ts` lines 22-33): given the stored
`averageGain`/`averageLoss` cells, `relativeStrength` is their quotient with
NaN collapsed to 0, and the result is `100 - 100 / (1 + relativeStrength)`. -/
def rsiCore (averageGain averageLoss : JSNum) : JSNum :=
  let quotient := jsDiv averageGain averageLoss
  let relativeStrength := if quotient.isNaN then JSNum.num 0 else quotient
  jsSub (.num 100) (jsDiv (.num 100) (jsAdd (.num 1) relativeStrength))

/-- The RSI indicator value (`rsi.ts`): NaN while the history is not longer
than the period, else the core computation over the spread
`averageGain`/`averageLoss` columns, whose last cells hold the full
computation over the whole history. -/
def rsiFull (xs : List ℚ) (period : ℕ) : JSNum :=
  if xs.length ≤ period then .nan
  else rsiCore (averageGainFull xs period) (averageLossFull xs period)

/-- The EMA full computation (`ema.ts`) over a scalar raw history: NaN below
the period, the SMA of the whole history at exactly the period (the inner
`sma_temp` SMA sees no previous value on the bare temporary dataset that
`spread` computes on, so it takes its full-mean branch), else the iterated
smoothing `v * s + ema * (1 - s)` with `s = 2 / (period + 1)`, started from
the mean of the first `period` values. -/
def emaFull (period : ℕ) (xs : List ℚ) : JSNum :=
  if xs.length < period then .nan
  else if xs.length = period then .num (xs.sum / (period : ℚ))
  else
    let smoothing : ℚ := 2 / ((period : ℚ) + 1)
    let initial : ℚ := (xs.take period).sum / (period : ℚ)
    .num ((xs.drop period).foldl (fun e v => v * smoothing + e * (1 - smoothing)) initial)

/-- A miniature model of `Dataset` sufficient for the registration dynamics
of `beforeCalculate` hooks: the raw scalar rows, the `_indicators`
registration list (names only — `Dataset.setIndicator` *pushes*
unconditionally), and the storage's indicator columns as a map from name to
column data (`Map` get/set semantics). -/
structure DatasetReg where
  values : List ℚ
  inds : List String
  cols : String → Option (List JSNum)

/-- `Map.set` on the column map. -/
def setColFn (cols : String → Option (List JSNum)) (name : String)
    (data : List JSNum) : String → Option (List JSNum) :=
  fun n => if n = name then some data else cols n

/-- The column data `Indicator.spread` produces for a full computation that
reads only the raw history (as both MACD dependents do): cell `i` is the
full computation over the row prefix `0..i`, evaluated on the bare temporary
dataset `spread` builds row by row. -/
def spreadCalc (full : List ℚ → JSNum) (values : List ℚ) : List JSNum :=
  (List.range values.length).map (fun i => full (values.take (i + 1)))

/-- `Dataset.apply` for one indicator (`dataset.ts`): `setIndicator` pushes a
registration entry and ensures the storage column, then `indicator.spread`
recomputes and stores every cell of that column (the `mutateAt` write-back of
the other columns rewrites their existing values unchanged). -/
def datasetApplyInd (d : DatasetReg) (name : String) (full : List ℚ → JSNum) :
    DatasetReg where
  values := d.values
  inds := d.inds ++ [name]
  cols := setColFn d.cols name (spreadCalc full d.values)

/-- The dependent column names of the MACD composite. -/
def ema12Name : String := "ema12"

def ema26Name : String := "ema26"

/-- The `beforeCalculate` hook of `MACD` (`sma.ts`): unconditionally
`dataset.apply(ema12, ema26)` with the two EMA dependents. -/
def macdBeforeCalculate (d : DatasetReg) : DatasetReg :=
  datasetApplyInd (datasetApplyInd d ema12Name (emaFull 12)) ema26Name (emaFull 26)

/-- Association-list lookup for the storage's column `Map`s (first match,
like `Map.get`). -/
def lookupCol {α : Type} (cols : List (String × α)) (name : String) : Option α :=
  match cols with
  | [] => none
  | p :: rest => if p.1 = name then some p.2 else lookupCol rest name

/-- Point update of one column's data (`Map.get` + in-place mutation of the
backing array). -/
def updateCol {α : Type} (cols : List (String × α)) (name : String) (f : α → α) :
    List (String × α) :=
  cols.map (fun p => if p.1 = name then (p.1, f p.2) else p)

/-- `ColumnarStorage` (`columnarStorage.ts`) for scalar values: the capacity
of the typed arrays, the logical length, the `Float64Array` of raw values
(zero-initialized), and the indicator / strategy columns.  An indicator
column is a total function on positions (a `Float64Array` of the current
capacity — reads are gated by the capacity at the access sites, since
`Float64Array` out-of-range reads give JS `undefined`); a strategy column is
a plain JS array (reads of holes and out-of-range positions give
`undefined`).  The object-value mode (`objectValues`/`isNumeric`) is not
exercised by any claim and is omitted. -/
structure ColumnarStorage where
  capacity : ℕ
  length : ℕ
  numericValues : ℕ → ℚ
  indicators : List (String × (ℕ → JSNum))
  strategies : List (String × (ℕ → Option StrategyValue))

/-- The `ColumnarStorage` constructor with the default initial capacity. -/
def ColumnarStorage.empty : ColumnarStorage where
  capacity := 1000
  length := 0
  numericValues := fun _ => 0
  indicators := []
  strategies := []

/-- `resize`: double the capacity; each indicator column is copied into a
fresh zero-initialized `Float64Array` and then NaN-filled from `_length` up
(`newColumn.set(column); newColumn.fill(NaN, this._length)`), so a resized
column reads the old value below the length and NaN elsewhere; the numeric
values are copied with fresh zeros beyond the old capacity; strategy arrays
grow automatically. -/
def ColumnarStorage.resize (s : ColumnarStorage) : ColumnarStorage where
  capacity := 2 * s.capacity
  length := s.length
  numericValues := fun i => if i < s.capacity then s.numericValues i else 0
  indicators :=
    s.indicators.map (fun p => (p.1, fun i => if i < s.length then p.2 i else JSNum.nan))
  strategies := s.strategies

/-- `addValue`: resize when full, write the value at the tail, grow the
length. -/
def ColumnarStorage.addValue (s : ColumnarStorage) (v : ℚ) : ColumnarStorage :=
  let t := if s.capacity ≤ s.length then s.resize else s
  { t with
    numericValues := fun i => if i = t.length then v else t.numericValues i
    length := t.length + 1 }

/-- `ensureIndicatorColumn`: create the all-NaN column once
(`new Float64Array(capacity).fill(NaN)`); a second call is a no-op. -/
def ColumnarStorage.ensureIndicatorColumn (s : ColumnarStorage) (name : String) :
    ColumnarStorage :=
  if (lookupCol s.indicators name).isSome then s
  else { s with indicators := s.indicators ++ [(name, fun _ => JSNum.nan)] }

/-- `setIndicator`: ensure the column, resolve the (possibly negative) index
against the length, write the cell.  A `Float64Array` write at an
out-of-range index is silently ignored, modelled by the gate. -/
def ColumnarStorage.setIndicator (s : ColumnarStorage) (index : ℤ) (name : String)
    (value : JSNum) : ColumnarStorage :=
  let t := s.ensureIndicatorColumn name
  let actualIndex : ℤ := if index < 0 then (t.length : ℤ) + index else index
  if 0 ≤ actualIndex ∧ actualIndex < (t.capacity : ℤ) then
    { t with
      indicators := updateCol t.indicators name
        (fun col => fun i => if i = actualIndex.toNat then value else col i) }
  else t

/-- `getIndicator` (`columnarStorage.ts`): `column ? column[actualIndex] :
NaN` — a missing column reads as NaN at every index; a present column reads
its cell, or JS `undefined` (here `none`) when the resolved index falls
outside the typed array. -/
def ColumnarStorage.getIndicator (s : ColumnarStorage) (index : ℤ) (name : String) :
    Option JSNum :=
  let actualIndex : ℤ := if index < 0 then (s.length : ℤ) + index else index
  match lookupCol s.indicators name with
  | none => some .nan
  | some col =>
    if 0 ≤ actualIndex ∧ actualIndex < (s.capacity : ℤ) then some (col actualIndex.toNat)
    else none

/-- `ensureStrategyColumn`: create the empty array once. -/
def ColumnarStorage.ensureStrategyColumn (s : ColumnarStorage) (name : String) :
    ColumnarStorage :=
  if (lookupCol s.strategies name).isSome then s
  else { s with strategies := s.strategies ++ [(name, fun _ => none)] }

/-- `setStrategy`: ensure the column, resolve the index, write the cell (a JS
array write at any non-negative index succeeds, growing the array with
holes). -/
def ColumnarStorage.setStrategy (s : ColumnarStorage) (index : ℤ) (name : String)
    (value : StrategyValue) : ColumnarStorage :=
  let t := s.ensureStrategyColumn name
  let actualIndex : ℤ := if index < 0 then (t.length : ℤ) + index else index
  if 0 ≤ actualIndex then
    { t with
      strategies := updateCol t.strategies name
        (fun col => fun i => if i = actualIndex.toNat then some value else col i) }
  else t

/-- `getStrategy` (`columnarStorage.ts`): `column ? column[actualIndex] :
undefined` — a missing column, an unset (hole) cell and an out-of-range index
all read as `undefined` (`none`), never as NaN. -/
def ColumnarStorage.getStrategy (s : ColumnarStorage) (index : ℤ) (name : String) :
    Option StrategyValue :=
  let actualIndex : ℤ := if index < 0 then (s.length : ℤ) + index else index
  match lookupCol s.strategies name with
  | none => none
  | some col => if 0 ≤ actualIndex then col actualIndex.toNat else none

/-- The mutating operations of the store API.  Write indices are the natural
numbers the `Dataset` call sites pass (its writes always target
`newIndex ≥ 0` or an explicitly resolved index). -/
inductive StoreOp where
  | addValue (v : ℚ)
  | ensureIndicatorColumn (name : String)
  | setIndicator (index : ℕ) (name : String) (value : JSNum)
  | ensureStrategyColumn (name : String)
  | setStrategy (index : ℕ) (name : String) (value : StrategyValue)

/-- Execute one store operation. -/
def StoreOp.run (op : StoreOp) (s : ColumnarStorage) : ColumnarStorage :=
  match op with
  | .addValue v => s.addValue v
  | .ensureIndicatorColumn n => s.ensureIndicatorColumn n
  | .setIndicator i n v => s.setIndicator (i : ℤ) n v
  | .ensureStrategyColumn n => s.ensureStrategyColumn n
  | .setStrategy i n sv => s.setStrategy (i : ℤ) n sv

/-- Execute a trace of store operations. -/
def runOps : List StoreOp → ColumnarStorage → ColumnarStorage
  | [], s => s
  | op :: rest, s => runOps rest (op.run s)

/-- Does an operation register (or write into, which registers) the named
indicator column? -/
def StoreOp.registersInd (op : StoreOp) (name : String) : Bool :=
  match op with
  | .ensureIndicatorColumn n => n = name
  | .setIndicator _ n _ => n = name
  | _ => false

/-- Does an operation write the indicator cell `(i, name)`? -/
def StoreOp.setsIndCell (op : StoreOp) (i : ℕ) (name : String) : Bool :=
  match op with
  | .setIndicator j n _ => j = i && n = name
  | _ => false

/-- Does an operation write the strategy cell `(i, name)`? -/
def StoreOp.setsStratCell (op : StoreOp) (i : ℕ) (name : String) : Bool :=
  match op with
  | .setStrategy j n _ => j = i && n = name
  | _ => false

/-- An indicator as the indicator contract sees it: a full recomputation over
the raw history (`full(store)` over the history up to the last row — exactly
what `Indicator.spread` evaluates on the bare temporary dataset it builds,
and what `Dataset.add` evaluates when no valid previous value exists), plus
an optional O(1) incremental update from the previous stored value.
Indicators whose full function reads other derived columns are outside this
contract (the spec treats indicator formulas as functions of preceding raw
history). -/
structure IndicatorModel (V : Type) where
  full : List V → JSNum
  incr : Option (JSNum → V → List V → JSNum)

/-- The dataset state the two preparation paths must agree on: the raw rows,
one indicator column per registered indicator (in registration order), and
the stored position column of the registered strategy. -/
structure StreamState (V : Type) where
  rows : List V
  cols : List (List JSNum)
  poss : List TradePosition
deriving DecidableEq, Repr

/-- The indicator value `Dataset.add` stores for the new row (`dataset.ts`):
with an incremental function present, more than one row, and a non-NaN
previous stored value, the incremental update; otherwise the full
recomputation.  `rows'` is the history including the new row `v`; `prev?` is
the column's last stored value (`getIndicator(newIndex - 1, name)`). -/
def streamIndValue {V : Type} (ind : IndicatorModel V) (rowsWithNew : List V) (v : V)
    (prev? : Option JSNum) : JSNum :=
  match ind.incr, prev? with
  | some f, some prev =>
    if 1 < rowsWithNew.length ∧ ¬ prev = .nan then f prev v rowsWithNew
    else ind.full rowsWithNew
  | _, _ => ind.full rowsWithNew

/-- One `Dataset.add` call (`dataset.ts`): append the row, compute and store
each registered indicator's value (incremental when possible), then evaluate
the strategy against its last stored position — the quote it sees carries the
raw value and the just-stored indicator readings — and store
`TradePosition.update(lastPosition, apply(...).position)`.  `step` abstracts
`strat.strategy.apply(tempQuote, lastPosition).position` as a pure function
of the raw value, the indicator readings and the previous position. -/
def datasetAdd {V : Type} (inds : List (IndicatorModel V))
    (step : V → List JSNum → TradePosition → TradePosition)
    (s : StreamState V) (v : V) : StreamState V :=
  let rows' := s.rows ++ [v]
  let cols' := (inds.zip s.cols).map
    (fun pc => pc.2 ++ [streamIndValue pc.1 rows' v pc.2.getLast?])
  let readings := cols'.map (fun c => c.getLast?.getD .nan)
  let last := s.poss.getLast?.getD ⟨.idle, []⟩
  let updated := TradePosition.update last (step v readings last)
  ⟨rows', cols', s.poss ++ [updated]⟩

/-- N streaming appends over a dataset with the indicators and the strategy
freshly registered. -/
def streamRun {V : Type} (inds : List (IndicatorModel V))
    (step : V → List JSNum → TradePosition → TradePosition)
    (rows : List V) : StreamState V :=
  rows.foldl (datasetAdd inds step) ⟨[], inds.map (fun _ => []), []⟩

/-- The indicator column the batch path produces (`Indicator.spread`): cell
`i` is the full computation over the row prefix `0..i`, evaluated on the bare
temporary dataset `spread` builds row by row. -/
def batchCol {V : Type} (ind : IndicatorModel V) (rows : List V) : List JSNum :=
  (List.range rows.length).map (fun i => ind.full (rows.take (i + 1)))

/-- The strategy pass of `Dataset.prepare` (`dataset.ts`): for each row index
in order, evaluate the strategy on the quote (raw value plus the stored
indicator readings at that row) and the previous stored position, and store
`TradePosition.update(lastPosition, apply(...).position)`. -/
def preparePoss {V : Type} (step : V → List JSNum → TradePosition → TradePosition)
    (readings : ℕ → List JSNum) : List V → ℕ → TradePosition → List TradePosition
  | [], _, _ => []
  | v :: rest, i, last =>
    let p := TradePosition.update last (step v (readings i) last)
    p :: preparePoss step readings rest (i + 1) p

/-- One batch preparation (`Backtest`'s constructor path): `Dataset.apply`
spreads each registered indicator over the full history, then the strategy
pass runs over the stored columns. -/
def prepareRun {V : Type} (inds : List (IndicatorModel V))
    (step : V → List JSNum → TradePosition → TradePosition)
    (rows : List V) : StreamState V :=
  let cols := inds.map (fun ind => batchCol ind rows)
  ⟨rows, cols,
    preparePoss step (fun i => cols.map (fun c => c.getD i .nan)) rows 0 ⟨.idle, []⟩⟩

/-- The spec's incremental-update contract (`Indicator` §4.2: the incremental
function "must agree" with the full recomputation): wherever the previous
full value exists and is not NaN, updating it incrementally with the new row
equals recomputing from scratch. -/
def IncrAgrees {V : Type} (ind : IndicatorModel V) : Prop :=
  ∀ (f : JSNum → V → List V → JSNum) (p : List V) (v : V),
    ind.incr = some f → p ≠ [] → ind.full p ≠ .nan →
      f (ind.full p) v (p ++ [v]) = ind.full (p ++ [v])

/-- The transition table as the specification's words state it: from idle,
decision entry gives entry and any other decision gives idle; from entry or
hold, decision exit gives exit and any other decision gives hold; from exit,
decision entry gives entry and any other decision gives idle. -/
def specNextKind (c d : TradePositionType) : TradePositionType :=
  match c with
  | .idle => if d = .entry then .entry else .idle
  | .entry => if d = .exit then .exit else .hold
  | .hold => if d = .exit then .exit else .hold
  | .exit => if d = .entry then .entry else .idle

/-- C2: the transition function is total and deterministic — for each of the
16 (current kind, decision kind) pairs `newTradingPositionMap` yields exactly
one next kind — and that next kind agrees with the specification's table. -/
theorem tradePosition_transition_total_matches_spec :
    (∀ c d : TradePositionType, ∃! n, newTradingPositionMap c d = n) ∧
    (∀ c d : TradePositionType, newTradingPositionMap c d = specNextKind c d) := by
  constructor
  · intro c d
    exact ⟨newTradingPositionMap c d, rfl, fun y hy => hy.symm⟩
  · intro c d
    cases c <;> cases d <;> rfl

theorem Metadata.find_eq_none (m : Metadata) (k : MetaKey) (h : m.hasKey k = false) :
    m.find k = none := by
  induction m with
  | nil => rfl
  | cons p rest ih =>
    rw [Metadata.hasKey, List.any_cons, Bool.or_eq_false_iff] at h
    rw [Metadata.find, if_neg (by simpa using h.1)]
    exact ih h.2

theorem mergeMeta_find (old new : Metadata) (k : MetaKey) :
    (mergeMeta old new).find k =
      if new.hasKey k then new.find k else old.find k := by
  induction old with
  | nil =>
    by_cases hk : new.hasKey k = true
    · simpa [mergeMeta] using (if_pos hk).symm
    · rw [Bool.not_eq_true] at hk
      simp [mergeMeta, hk, Metadata.find, Metadata.find_eq_none new k hk]
  | cons p rest ih =>
    rw [mergeMeta, List.filter_cons]
    by_cases hp : new.hasKey p.1 = true
    · rw [if_neg (by simp [hp])]
      rw [mergeMeta] at ih
      rw [ih]
      by_cases hk : new.hasKey k = true
      · simp [hk]
      · rw [Bool.not_eq_true] at hk
        have hpk : ¬ p.1 = k := fun h => by rw [h] at hp; rw [hp] at hk; cases hk
        simp [hk, Metadata.find, hpk]

    · rw [if_pos (by simp [hp]), List.cons_append, Metadata.find]
      rw [Bool.not_eq_true] at hp
      by_cases hpk : p.1 = k
      · have hk : new.hasKey k = false := hpk ▸ hp
        rw [if_pos hpk, if_neg (by simp [hk]), Metadata.find, if_pos hpk]
      · rw [if_neg hpk]
        rw [mergeMeta] at ih
        rw [ih]
        by_cases hk : new.hasKey k = true <;> simp [hk, Metadata.find, hpk]

theorem mergeMeta_hasKey (a b : Metadata) (k : MetaKey) :
    (mergeMeta a b).hasKey k =
      (Metadata.hasKey (a.filter (fun p => ! b.hasKey p.1)) k || b.hasKey k) := by
  rw [mergeMeta, Metadata.hasKey, List.any_append]
  rfl

theorem mergeMeta_absorb (a b : Metadata) :
    mergeMeta a (mergeMeta a b) = mergeMeta a b := by
  have hnil : a.filter (fun p => ! (mergeMeta a b).hasKey p.1) = [] := by
    rw [List.filter_eq_nil_iff]
    intro p hp
    suffices h : (mergeMeta a b).hasKey p.1 = true by simp [h]
    rw [mergeMeta_hasKey]
    by_cases hb : b.hasKey p.1 = true
    · simp [hb]
    · rw [Bool.not_eq_true] at hb
      have hmem : p ∈ a.filter (fun q => ! b.hasKey q.1) :=
        List.mem_filter.mpr ⟨hp, by simp [hb]⟩
      have hany : Metadata.hasKey (a.filter (fun q => ! b.hasKey q.1)) p.1 = true :=
        List.any_eq_true.mpr ⟨p, hmem, by simp⟩
      simp [hany]
  rw [mergeMeta, hnil, List.nil_append]

theorem mergeMeta_read_single (a : Metadata) (k : MetaKey) (v : MetaVal) :
    (mergeMeta a [(k, v)]).read k = v := by
  rw [Metadata.read, mergeMeta_find, if_pos (by simp [Metadata.hasKey])]
  simp [Metadata.find]

/-- C7: `TradePosition.update` produces a fresh position (the embedding is
pure; the source builds a new object and spread-copies the options) whose
kind follows the transition table and whose metadata maps each key present in
the new metadata to the new value and every other key of the old metadata to
its old value; in particular a key such as `entryPrice` absent from the new
metadata keeps its old value through the transition. -/
theorem tradePosition_update_metadata_merge (old new : TradePosition) (k : MetaKey) :
    (TradePosition.update old new).value = newTradingPositionMap old.value new.value ∧
    (TradePosition.update old new).options.find k =
      (if new.options.hasKey k then new.options.find k else old.options.find k) ∧
    (new.options.hasKey .entryPrice = false →
      (TradePosition.update old new).options.find .entryPrice = old.options.find .entryPrice) := by
  refine ⟨rfl, mergeMeta_find _ _ _, fun h => ?_⟩
  show (mergeMeta old.options new.options).find .entryPrice = _
  rw [mergeMeta_find, if_neg (by simp [h])]

theorem tradePosition_update_metadata_merge_witness :
    (TradePosition.update ⟨.entry, [(MetaKey.entryPrice, MetaVal.numv 50)]⟩
        ⟨.hold, [(MetaKey.short, MetaVal.boolv false)]⟩).options.find .entryPrice =
      some (MetaVal.numv 50) := by
  have h := tradePosition_update_metadata_merge
      ⟨.entry, [(MetaKey.entryPrice, MetaVal.numv 50)]⟩
      ⟨.hold, [(MetaKey.short, MetaVal.boolv false)]⟩ MetaKey.entryPrice
  exact (h.2.2 (by decide)).trans (by decide)

/-- C3: `Strategy.apply` follows the strict priority order: with a previous
position of kind entry or hold, a firing stop-loss predicate wins and yields
an exit with reason stop-loss (and `markExit` then bumps the stop-loss
counter); otherwise a firing take-profit predicate yields an exit with reason
take-profit; otherwise the strategy's own exit predicate yields an exit with
reason strategy (and `markExit` bumps the strategy counter); otherwise a
firing entry predicate yields decision entry; otherwise decision idle.  On a
run where both the stop-loss and the strategy exit predicate fire the
recorded reason is stop-loss, while the same strategy without the stop-loss
predicate records reason strategy. -/
theorem strategy_apply_priority {Q : Type} (opts : StrategyOptions Q) (quote : Q)
    (position : TradePosition) (entryFn exitFn : Q → Bool) (price : ℚ) (r : BacktestReport)
    (hpos : position.value = .hold ∨ position.value = .entry)
    (hsel : selectedPredicates opts position = some (entryFn, exitFn)) :
    (riskCheck opts.stopLossWhen quote position = true →
      Strategy.apply opts quote position =
        some ⟨⟨.exit, mergeMeta position.options [(.exitReason, .reason .stopLoss)]⟩⟩ ∧
      (r.markExit price
          ⟨.exit, mergeMeta position.options [(.exitReason, .reason .stopLoss)]⟩).stopLossExits =
        r.stopLossExits + 1) ∧
    (riskCheck opts.stopLossWhen quote position = false →
     riskCheck opts.takeProfitWhen quote position = true →
      Strategy.apply opts quote position =
        some ⟨⟨.exit, mergeMeta position.options [(.exitReason, .reason .takeProfit)]⟩⟩) ∧
    (riskCheck opts.stopLossWhen quote position = false →
     riskCheck opts.takeProfitWhen quote position = false →
     exitFn quote = true →
      Strategy.apply opts quote position =
        some ⟨⟨.exit, mergeMeta position.options [(.exitReason, .reason .strategy)]⟩⟩ ∧
      (r.markExit price
          ⟨.exit, mergeMeta position.options [(.exitReason, .reason .strategy)]⟩).strategyExits =
        r.strategyExits + 1) ∧
    (riskCheck opts.stopLossWhen quote position = false →
     riskCheck opts.takeProfitWhen quote position = false →
     exitFn quote = false → entryFn quote = true →
      Strategy.apply opts quote position =
        some ⟨TradePosition.update position
          ⟨.entry, mergeMeta position.options [(.exitReason, .undefv)]⟩⟩) ∧
    (riskCheck opts.stopLossWhen quote position = false →
     riskCheck opts.takeProfitWhen quote position = false →
     exitFn quote = false → entryFn quote = false →
      Strategy.apply opts quote position =
        some ⟨TradePosition.update position
          ⟨.idle, mergeMeta position.options [(.exitReason, .undefv)]⟩⟩) ∧
    (riskCheck opts.takeProfitWhen quote position = false →
     exitFn quote = true →
      Strategy.apply { opts with stopLossWhen := none } quote position =
        some ⟨⟨.exit, mergeMeta position.options [(.exitReason, .reason .strategy)]⟩⟩) := by
  have hexit : newTradingPositionMap position.value .exit = .exit := by
    rcases hpos with h | h <;> rw [h] <;> rfl
  have hstrat : ∀ o : StrategyOptions Q, selectedPredicates o position = some (entryFn, exitFn) →
      riskCheck o.stopLossWhen quote position = false →
      riskCheck o.takeProfitWhen quote position = false →
      exitFn quote = true →
      Strategy.apply o quote position =
        some ⟨⟨.exit, mergeMeta position.options [(.exitReason, .reason .strategy)]⟩⟩ := by
    intro o hselo h1 h2 h3
    rw [Strategy.apply, if_neg (by rw [h1]; exact fun h => by simpa using h.2),
      if_neg (by rw [h2]; exact fun h => by simpa using h.2), hselo]
    simp only [hpos, h3, true_and, if_pos]
    rw [TradePosition.update, mergeMeta_absorb, hexit]
  refine ⟨?_, ?_, ?_, ?_, ?_, ?_⟩
  · intro h1
    constructor
    · rw [Strategy.apply, if_pos ⟨hpos, h1⟩]
    · rw [BacktestReport.markExit]
      simp [mergeMeta_read_single]
  · intro h1 h2
    rw [Strategy.apply, if_neg (by rw [h1]; exact fun h => by simpa using h.2),
      if_pos ⟨hpos, h2⟩]
  · intro h1 h2 h3
    refine ⟨hstrat opts hsel h1 h2 h3, ?_⟩
    rw [BacktestReport.markExit]
    simp [mergeMeta_read_single]
  · intro h1 h2 h3 h4
    rw [Strategy.apply, if_neg (by rw [h1]; exact fun h => by simpa using h.2),
      if_neg (by rw [h2]; exact fun h => by simpa using h.2), hsel]
    simp only [h3, h4, and_false, if_neg, if_pos, false_and, not_false_iff, if_true]
    simp
  · intro h1 h2 h3 h4
    rw [Strategy.apply, if_neg (by rw [h1]; exact fun h => by simpa using h.2),
      if_neg (by rw [h2]; exact fun h => by simpa using h.2), hsel]
    simp only [h3, h4, and_false, false_and, not_false_iff, if_neg, if_false]
    simp
  · intro h2 h3
    exact hstrat { opts with stopLossWhen := none } hsel rfl h2 h3

theorem strategy_apply_priority_witness :
    Strategy.apply (Q := ℚ)
        ⟨.long (fun _ => false) (fun _ => true), some (fun _ _ => true), none⟩ 0 ⟨.hold, []⟩ =
      some ⟨⟨.exit, mergeMeta [] [(.exitReason, .reason .stopLoss)]⟩⟩ ∧
    Strategy.apply (Q := ℚ)
        ⟨.long (fun _ => false) (fun _ => true), none, none⟩ 0 ⟨.hold, []⟩ =
      some ⟨⟨.exit, mergeMeta [] [(.exitReason, .reason .strategy)]⟩⟩ := by
  have h := strategy_apply_priority (Q := ℚ)
    ⟨.long (fun _ => false) (fun _ => true), some (fun _ _ => true), none⟩ 0 ⟨.hold, []⟩
    (fun _ => false) (fun _ => true) 10 (BacktestReport.init 1000) (Or.inl rfl) rfl
  exact ⟨(h.1 rfl).1, h.2.2.2.2.2 rfl rfl⟩

/-- C4: the ledger round trip.  From capital `C`, `markEntry` at price `p`
sets `sharesOwned = C / p` and converts all capital to shares; a subsequent
`markExit` at price `q` replaces the capital by `C / p * q`, classifies the
trade as a win iff the proceeds exceed the capital before the trade, sets
`returns = finalCapital - initialCapital` and
`returnsPercentage = returns / initialCapital * 100`, increments
`numberOfTrades` exactly once (on exit, not entry), and resets `sharesOwned`
to 0.  The instantiations of the two spec scenarios (capital 1000, entry at
50, exit at 100 or 25) are included as closed conjuncts. -/
theorem backtestReport_ledger_roundtrip (C p q : ℚ) (pos : TradePosition) (hp : p ≠ 0) :
    ((BacktestReport.init C).markEntry p).sharesOwned = C / p ∧
    ((BacktestReport.init C).markEntry p).finalCapital = 0 ∧
    ((BacktestReport.init C).markEntry p).numberOfTrades = 0 ∧
    (((BacktestReport.init C).markEntry p).markExit q pos).finalCapital = C / p * q ∧
    ((((BacktestReport.init C).markEntry p).markExit q pos).numberOfWinningTrades = 1 ∧
      (((BacktestReport.init C).markEntry p).markExit q pos).numberOfLosingTrades = 0 ↔
      C < C / p * q) ∧
    (((BacktestReport.init C).markEntry p).markExit q pos).returns = C / p * q - C ∧
    (((BacktestReport.init C).markEntry p).markExit q pos).returnsPercentage =
      (((BacktestReport.init C).markEntry p).markExit q pos).returns / C * 100 ∧
    (((BacktestReport.init C).markEntry p).markExit q pos).numberOfTrades = 1 ∧
    (((BacktestReport.init C).markEntry p).markExit q pos).sharesOwned = 0 ∧
    (((BacktestReport.init 1000).markEntry 50).markExit 100 ⟨.exit, []⟩).finalCapital = 2000 ∧
    (((BacktestReport.init 1000).markEntry 50).markExit 100 ⟨.exit, []⟩).profit = 1000 ∧
    (((BacktestReport.init 1000).markEntry 50).markExit 100 ⟨.exit, []⟩).returnsPercentage = 100 ∧
    (((BacktestReport.init 1000).markEntry 50).markExit 100 ⟨.exit, []⟩).numberOfTrades = 1 ∧
    (((BacktestReport.init 1000).markEntry 50).markExit 100 ⟨.exit, []⟩).winningRate = 1 ∧
    (((BacktestReport.init 1000).markEntry 50).markExit 25 ⟨.exit, []⟩).finalCapital = 500 ∧
    (((BacktestReport.init 1000).markEntry 50).markExit 25 ⟨.exit, []⟩).loss = 500 ∧
    (((BacktestReport.init 1000).markEntry 50).markExit 25 ⟨.exit, []⟩).returnsPercentage = -50 ∧
    (((BacktestReport.init 1000).markEntry 50).markExit 25 ⟨.exit, []⟩).numberOfLosingTrades = 1 := by
  refine ⟨rfl, rfl, rfl, rfl, ?_, rfl, ?_, rfl, rfl, ?_⟩
  · by_cases h : (C : ℚ) < C / p * q <;>
      simp [BacktestReport.markEntry, BacktestReport.markExit, BacktestReport.init, h]
  · exact (div_mul_eq_mul_div (C / p * q - C) C 100).symm
  · norm_num [BacktestReport.init, BacktestReport.markEntry, BacktestReport.markExit,
      Metadata.read, Metadata.find]

theorem backtestReport_ledger_roundtrip_witness :
    (50 : ℚ) ≠ 0 ∧ ((BacktestReport.init 1000).markEntry 50).sharesOwned = 1000 / 50 :=
  ⟨by norm_num, (backtestReport_ledger_roundtrip 1000 50 100 ⟨.exit, []⟩ (by norm_num)).1⟩

theorem Backtest.runFrom_append (n : ℕ) (onEntry onExit : ℕ → ℚ)
    (l : List TradePosition) (p : TradePosition) :
    ∀ (i : ℕ) (r : BacktestReport),
      Backtest.runFrom n onEntry onExit (l ++ [p]) i r =
        Backtest.runStep n onEntry onExit (i + l.length) p
          (Backtest.runFrom n onEntry onExit l i r) := by
  induction l with
  | nil => intro i r; rfl
  | cons q rest ih =>
    intro i r
    rw [List.cons_append, Backtest.runFrom, Backtest.runFrom, ih]
    have h : i + 1 + rest.length = i + (q :: rest).length := by
      rw [List.length_cons]
      omega
    rw [h]

/-- C5: forced end-of-history liquidation.  If the stored position at the
last row is entry or hold, `Backtest.run` performs `markExit` at that row's
exit trigger price (instead of an entry or a hold no-op), `numberOfTrades`
still increments exactly once for that trade relative to the report before
the last row, and no open position survives: `sharesOwned` is 0 on return. -/
theorem backtest_forced_liquidation (l : List TradePosition) (p : TradePosition)
    (onEntry onExit : ℕ → ℚ) (C : ℚ)
    (hp : p.value = .entry ∨ p.value = .hold) :
    Backtest.run (l ++ [p]) onEntry onExit C =
      (Backtest.runFrom (l ++ [p]).length onEntry onExit l 0
          (BacktestReport.init C)).markExit (onExit l.length) p ∧
    (Backtest.run (l ++ [p]) onEntry onExit C).sharesOwned = 0 ∧
    (Backtest.run (l ++ [p]) onEntry onExit C).numberOfTrades =
      (Backtest.runFrom (l ++ [p]).length onEntry onExit l 0
          (BacktestReport.init C)).numberOfTrades + 1 := by
  have hmain : Backtest.run (l ++ [p]) onEntry onExit C =
      (Backtest.runFrom (l ++ [p]).length onEntry onExit l 0
          (BacktestReport.init C)).markExit (onExit l.length) p := by
    rw [Backtest.run, Backtest.runFrom_append, Backtest.runStep, Nat.zero_add,
      if_pos ⟨by simp, hp⟩]
  exact ⟨hmain, by rw [hmain]; rfl, by rw [hmain]; rfl⟩

theorem backtest_forced_liquidation_witness :
    (Backtest.run ([⟨.idle, []⟩] ++ [⟨.hold, []⟩]) (fun _ => 5) (fun _ => 7) 100).sharesOwned
      = 0 :=
  (backtest_forced_liquidation [⟨.idle, []⟩] ⟨.hold, []⟩ (fun _ => 5) (fun _ => 7) 100
    (Or.inr rfl)).2.1

theorem Backtest.runFrom_no_entry_invariant (n : ℕ) (onEntry onExit : ℕ → ℚ)
    (l : List TradePosition) :
    ∀ (i : ℕ) (r : BacktestReport), r.sharesOwned = 0 → 0 ≤ r.currentCapital →
      (∀ q ∈ l, q.value ≠ .entry) →
      (Backtest.runFrom n onEntry onExit l i r).sharesOwned = 0 ∧
      0 ≤ (Backtest.runFrom n onEntry onExit l i r).currentCapital := by
  induction l with
  | nil => exact fun i r h1 h2 _ => ⟨h1, h2⟩
  | cons q rest ih =>
    intro i r h1 h2 hno
    rw [Backtest.runFrom]
    have hq : q.value ≠ .entry := hno q (List.mem_cons_self q rest)
    have hstep : (Backtest.runStep n onEntry onExit i q r).sharesOwned = 0 ∧
        0 ≤ (Backtest.runStep n onEntry onExit i q r).currentCapital := by
      rw [Backtest.runStep]
      by_cases hforce : i = n - 1 ∧ (q.value = .entry ∨ q.value = .hold)
      · rw [if_pos hforce]
        refine ⟨rfl, ?_⟩
        show (0 : ℚ) ≤ r.sharesOwned * onExit i
        rw [h1, zero_mul]
      · rw [if_neg hforce, if_neg hq]
        by_cases hex : q.value = .exit
        · rw [if_pos hex]
          refine ⟨rfl, ?_⟩
          show (0 : ℚ) ≤ r.sharesOwned * onExit i
          rw [h1, zero_mul]
        · rw [if_neg hex]
          exact ⟨h1, h2⟩
    exact ih (i + 1) _ hstep.1 hstep.2 (fun x hx => hno x (List.mem_cons_of_mem q hx))

/-- C10: if the stored position column holds `entry` at the last row and no
entry was completed earlier, `Backtest.run` takes the forced-exit branch and
calls `markExit` while `sharesOwned` is 0, so the run returns
`finalCapital = 0`, records one losing trade whose loss equals the entire
current capital, and increments `numberOfTrades` by one — the capital is not
preserved for an entry signal arriving on the final row. -/
theorem backtest_entry_at_last_row_loses_capital (l : List TradePosition)
    (p : TradePosition) (onEntry onExit : ℕ → ℚ) (C : ℚ)
    (hp : p.value = .entry) (hno : ∀ q ∈ l, q.value ≠ .entry) (hC : 0 ≤ C) :
    Backtest.run (l ++ [p]) onEntry onExit C =
      (Backtest.runFrom (l ++ [p]).length onEntry onExit l 0
          (BacktestReport.init C)).markExit (onExit l.length) p ∧
    (Backtest.runFrom (l ++ [p]).length onEntry onExit l 0
        (BacktestReport.init C)).sharesOwned = 0 ∧
    (Backtest.run (l ++ [p]) onEntry onExit C).finalCapital = 0 ∧
    (Backtest.run (l ++ [p]) onEntry onExit C).loss =
      (Backtest.runFrom (l ++ [p]).length onEntry onExit l 0
          (BacktestReport.init C)).loss +
      (Backtest.runFrom (l ++ [p]).length onEntry onExit l 0
          (BacktestReport.init C)).currentCapital ∧
    (Backtest.run (l ++ [p]) onEntry onExit C).numberOfLosingTrades =
      (Backtest.runFrom (l ++ [p]).length onEntry onExit l 0
          (BacktestReport.init C)).numberOfLosingTrades + 1 ∧
    (Backtest.run (l ++ [p]) onEntry onExit C).numberOfTrades =
      (Backtest.runFrom (l ++ [p]).length onEntry onExit l 0
          (BacktestReport.init C)).numberOfTrades + 1 := by
  set r1 := Backtest.runFrom (l ++ [p]).length onEntry onExit l 0 (BacktestReport.init C)
    with hr1
  have hinv : r1.sharesOwned = 0 ∧ 0 ≤ r1.currentCapital :=
    Backtest.runFrom_no_entry_invariant (l ++ [p]).length onEntry onExit l 0
      (BacktestReport.init C) rfl hC hno
  have hmain : Backtest.run (l ++ [p]) onEntry onExit C =
      r1.markExit (onExit l.length) p := by
    rw [Backtest.run, Backtest.runFrom_append, Backtest.runStep, Nat.zero_add,
      if_pos ⟨by simp, Or.inl hp⟩]
  have hproceeds : r1.sharesOwned * onExit l.length = 0 := by
    rw [hinv.1, zero_mul]
  have hnotwon : ¬ r1.currentCapital < r1.sharesOwned * onExit l.length := by
    rw [hproceeds]
    exact not_lt.mpr hinv.2
  refine ⟨hmain, hinv.1, ?_, ?_, ?_, ?_⟩
  · rw [hmain]
    show r1.sharesOwned * onExit l.length = 0
    exact hproceeds
  · rw [hmain]
    simp [BacktestReport.markExit, hproceeds, not_lt.mpr hinv.2]
  · rw [hmain]
    simp [BacktestReport.markExit, hproceeds, not_lt.mpr hinv.2]
  · rw [hmain]
    rfl

theorem backtest_entry_at_last_row_loses_capital_witness :
    (Backtest.run ([⟨.idle, []⟩] ++ [⟨.entry, []⟩]) (fun _ => 5) (fun _ => 7) 1000).finalCapital
      = 0 :=
  (backtest_entry_at_last_row_loses_capital [⟨.idle, []⟩] ⟨.entry, []⟩
    (fun _ => 5) (fun _ => 7) 1000 rfl (by decide) (by norm_num)).2.2.1

theorem foldl_high_const (c : ℚ) (m : ℕ) :
    (List.replicate m c).foldl
      (fun acc x => if jsGtNum x acc then JSNum.num x else acc) (.num c) = .num c := by
  induction m with
  | zero => rfl
  | succ m ih =>
    rw [List.replicate_succ, List.foldl_cons]
    have h : jsGtNum c (.num c) = false := by simp [jsGtNum]
    rw [h]
    exact ih

theorem foldl_low_const (c : ℚ) (m : ℕ) :
    (List.replicate m c).foldl
      (fun acc x => if jsLtNum x acc then JSNum.num x else acc) (.num c) = .num c := by
  induction m with
  | zero => rfl
  | succ m ih =>
    rw [List.replicate_succ, List.foldl_cons]
    have h : jsLtNum c (.num c) = false := by simp [jsLtNum]
    rw [h]
    exact ih

theorem highestHigh_replicate (c : ℚ) (n k : ℕ) (hk : 0 < k) (hkn : k ≤ n) :
    highestHigh (List.replicate n c) k = .num c := by
  rw [highestHigh, List.length_replicate, List.drop_replicate]
  have h : n - (n - k) = k := by omega
  rw [h]
  obtain ⟨m, rfl⟩ : ∃ m, k = m + 1 := ⟨k - 1, by omega⟩
  rw [List.replicate_succ, List.foldl_cons]
  have hgt : jsGtNum c .ninf = true := rfl
  rw [hgt]
  exact foldl_high_const c m

theorem lowestLow_replicate (c : ℚ) (n k : ℕ) (hk : 0 < k) (hkn : k ≤ n) :
    lowestLow (List.replicate n c) k = .num c := by
  rw [lowestLow, List.length_replicate, List.drop_replicate]
  have h : n - (n - k) = k := by omega
  rw [h]
  obtain ⟨m, rfl⟩ : ∃ m, k = m + 1 := ⟨k - 1, by omega⟩
  rw [List.replicate_succ, List.foldl_cons]
  have hlt : jsLtNum c .inf = true := rfl
  rw [hlt]
  exact foldl_low_const c m

theorem getLast?_replicate (c : ℚ) (n : ℕ) (hn : 0 < n) :
    (List.replicate n c).getLast? = some c := by
  induction n with
  | zero => omega
  | succ m ih =>
    rcases Nat.eq_zero_or_pos m with hm | hm
    · subst hm; rfl
    · rw [List.replicate_succ, List.getLast?_cons, ih hm]
      cases hrep : List.replicate m c with
      | nil => rw [hrep] at ih; simpa using ih hm
      | cons a l => simp [List.getLast?_cons] at *

theorem oneStepChanges_replicate (c : ℚ) (n : ℕ) :
    oneStepChanges (List.replicate n c) = List.replicate (n - 1) 0 := by
  induction n with
  | zero => rfl
  | succ m ih =>
    cases m with
    | zero => rfl
    | succ m' =>
      rw [oneStepChanges, List.replicate_succ, List.tail_cons, List.replicate_succ,
        List.zip_cons_cons, List.map_cons]
      have hih : List.map (fun p => p.2 - p.1)
          ((c :: List.replicate m' c).zip (List.replicate m' c)) = List.replicate m' 0 := by
        have h := ih
        rw [oneStepChanges, List.replicate_succ, List.tail_cons] at h
        simpa using h
      rw [hih]
      simp [List.replicate_succ]

theorem getAverageGain_replicate (c : ℚ) (n p : ℕ) (hp : 0 < p) (hpn : p ≤ n - 1) :
    getAverageGain (List.replicate n c) p = .num 0 := by
  rw [getAverageGain, if_neg (by omega), oneStepChanges_replicate]
  simp only [List.length_replicate, List.drop_replicate]
  have h : n - 1 - (n - 1 - p) = p := by omega
  rw [h]
  simp [List.map_replicate, List.sum_replicate]

theorem getAverageLoss_replicate (c : ℚ) (n p : ℕ) (hp : 0 < p) (hpn : p ≤ n - 1) :
    getAverageLoss (List.replicate n c) p = .num 0 := by
  rw [getAverageLoss, if_neg (by omega), oneStepChanges_replicate]
  simp only [List.length_replicate, List.drop_replicate]
  have h : n - 1 - (n - 1 - p) = p := by omega
  rw [h]
  simp [List.map_replicate, List.sum_replicate]

/-- C6 counterexample: the claim asserts that on a constant input sequence
every edge-case 0-100 oscillator, * including RSI *, returns the midpoint 50.
On the constant 15-row history of 50s (period 14) the RSI computation of
`rsi.ts` returns 0, not 50: the average gain and loss are both 0, which
`averageGain.ts` collapses to NaN via `|| NaN`, so `relativeStrength` falls
back to 0 and `100 - 100 / (1 + 0) = 0`.  The zero-divisor core alone shows
the same for both ways the averages can reach it (`0` or `NaN` cells). -/
theorem rsi_zero_variance_counterexample :
    rsiFull (List.replicate 15 50) 14 = .num 0 ∧
    rsiCore (.num 0) (.num 0) = .num 0 ∧
    rsiCore .nan .nan = .num 0 ∧
    JSNum.num 0 ≠ JSNum.num 50 := by
  refine ⟨?_,
    by norm_num [rsiCore, jsDiv, jsAdd, jsSub, jsNeg, JSNum.isNaN],
    by norm_num [rsiCore, jsDiv, jsAdd, jsSub, jsNeg, JSNum.isNaN],
    by decide⟩
  have hg := getAverageGain_replicate 50 15 14 (by norm_num) (by norm_num)
  have hl := getAverageLoss_replicate 50 15 14 (by norm_num) (by norm_num)
  rw [rsiFull, if_neg (by simp), averageGainFull, averageLossFull, hg, hl]
  norm_num [jsOrNaN, rsiCore, jsDiv, jsAdd, jsSub, jsNeg, JSNum.isNaN]

/-- C6 amended: on every constant (zero-variance) history at least as long
as the window, each edge-case indicator returns its coded neutral value:
Stochastic %K returns 50 (the 0-100 midpoint), Williams %R returns -50 (the
-100-0 midpoint), CCI returns 0 — but RSI returns 0, not the 0-100 midpoint
50. -/
theorem indicators_zero_variance_neutral (c : ℚ) (n kPeriod wPeriod cPeriod rPeriod : ℕ)
    (hk : 0 < kPeriod) (hkn : kPeriod ≤ n)
    (hw : 0 < wPeriod) (hwn : wPeriod ≤ n)
    (hc : 0 < cPeriod) (hcn : cPeriod ≤ n)
    (hr : 0 < rPeriod) (hrn : rPeriod < n) :
    calculateStochasticK (List.replicate n c) kPeriod = .num 50 ∧
    williamsR (List.replicate n c) wPeriod = .num (-50) ∧
    cci (List.replicate n c) cPeriod = .num 0 ∧
    rsiFull (List.replicate n c) rPeriod = .num 0 := by
  refine ⟨?_, ?_, ?_, ?_⟩
  · rw [calculateStochasticK, if_neg (by rw [List.length_replicate]; omega),
      highestHigh_replicate c n kPeriod hk hkn, lowestLow_replicate c n kPeriod hk hkn]
    simp
  · rw [williamsR, if_neg (by rw [List.length_replicate]; omega),
      highestHigh_replicate c n wPeriod hw hwn, lowestLow_replicate c n wPeriod hw hwn]
    simp
  · have hp0 : (cPeriod : ℚ) ≠ 0 := Nat.cast_ne_zero.mpr hc.ne'
    have htp : ∀ i, i < n → typicalPrice (List.replicate n c) i = c := by
      intro i hi
      rw [typicalPrice, List.getD_eq_getElem?_getD, List.getElem?_replicate, if_pos hi]
      show (c + c + c) / 3 = c
      ring
    have hwindow : (List.range cPeriod).map
        (fun j => typicalPrice (List.replicate n c) (n - cPeriod + j)) =
        List.replicate cPeriod c := by
      refine List.eq_replicate_iff.mpr ⟨by simp, ?_⟩
      intro b hb
      obtain ⟨j, hj, hjb⟩ := List.mem_map.mp hb
      rw [List.mem_range] at hj
      rw [← hjb]
      exact htp _ (by omega)
    have hsma : (List.replicate cPeriod c).sum / (cPeriod : ℚ) = c := by
      rw [List.sum_replicate, nsmul_eq_mul, mul_comm, mul_div_assoc, div_self hp0, mul_one]
    have hdev : ((List.replicate cPeriod c).map
        (fun t => |t - (List.replicate cPeriod c).sum / (cPeriod : ℚ)|)).sum / (cPeriod : ℚ)
        = 0 := by
      rw [hsma]
      have hmap : (List.replicate cPeriod c).map (fun t => |t - c|) =
          List.replicate cPeriod 0 := by
        rw [List.map_replicate]
        simp
      rw [hmap, List.sum_replicate]
      simp
    simp only [cci, List.length_replicate]
    rw [if_neg (by omega), hwindow, if_pos hdev]
  · have hg := getAverageGain_replicate c n rPeriod hr (by omega)
    have hl := getAverageLoss_replicate c n rPeriod hr (by omega)
    rw [rsiFull, if_neg (by rw [List.length_replicate]; omega),
      averageGainFull, averageLossFull, hg, hl]
    norm_num [jsOrNaN, rsiCore, jsDiv, jsAdd, jsSub, jsNeg, JSNum.isNaN]

theorem indicators_zero_variance_neutral_witness :
    calculateStochasticK (List.replicate 15 50) 14 = .num 50 ∧
    williamsR (List.replicate 15 50) 14 = .num (-50) ∧
    cci (List.replicate 15 50) 14 = .num 0 ∧
    rsiFull (List.replicate 15 50) 14 = .num 0 :=
  indicators_zero_variance_neutral 50 15 14 14 14 14
    (by norm_num) (by norm_num) (by norm_num) (by norm_num)
    (by norm_num) (by norm_num) (by norm_num) (by norm_num)

/-- C8 counterexample: invoking the MACD `beforeCalculate` hook twice does
not leave the dataset in the same state as invoking it once — the second
invocation pushes duplicate `ema12`/`ema26` entries onto the dataset's
indicator registration list (`Dataset.setIndicator` pushes unconditionally)
and re-runs the dependent spread. -/
theorem macd_beforeCalculate_not_idempotent :
    (macdBeforeCalculate (macdBeforeCalculate ⟨[], [], fun _ => none⟩)).inds ≠
      (macdBeforeCalculate ⟨[], [], fun _ => none⟩).inds ∧
    (macdBeforeCalculate (macdBeforeCalculate ⟨[], [], fun _ => none⟩)).inds =
      [ema12Name, ema26Name, ema12Name, ema26Name] ∧
    (macdBeforeCalculate ⟨[], [], fun _ => none⟩).inds = [ema12Name, ema26Name] := by
  refine ⟨?_, rfl, rfl⟩
  intro h
  have hlen := congrArg List.length h
  simp [macdBeforeCalculate, datasetApplyInd] at hlen

/-- C8 amended: invoking the MACD `beforeCalculate` hook twice leaves the raw
rows and every stored indicator column (the storage `Map`) exactly as after
one invocation — the dependent computation is re-run but deterministically
rewrites the same values — yet it is not idempotent on the whole dataset: the
indicator registration list gains a duplicate `ema12`/`ema26` entry pair. -/
theorem macd_beforeCalculate_idempotent_only_on_storage (d : DatasetReg) :
    (macdBeforeCalculate (macdBeforeCalculate d)).values = (macdBeforeCalculate d).values ∧
    (macdBeforeCalculate (macdBeforeCalculate d)).cols = (macdBeforeCalculate d).cols ∧
    (macdBeforeCalculate (macdBeforeCalculate d)).inds =
      (macdBeforeCalculate d).inds ++ [ema12Name, ema26Name] := by
  refine ⟨rfl, ?_, by simp [macdBeforeCalculate, datasetApplyInd]⟩
  funext n
  simp only [macdBeforeCalculate, datasetApplyInd, setColFn]
  by_cases h26 : n = ema26Name
  · simp [h26]
  · by_cases h12 : n = ema12Name <;> simp [h26, h12]

theorem lookupCol_resize_map (cols : List (String × (ℕ → JSNum))) (len : ℕ) (name : String) :
    lookupCol (cols.map (fun p => (p.1, fun i => if i < len then p.2 i else JSNum.nan))) name =
      (lookupCol cols name).map (fun col i => if i < len then col i else JSNum.nan) := by
  induction cols with
  | nil => rfl
  | cons p rest ih =>
    rw [List.map_cons, lookupCol, lookupCol]
    by_cases h : p.1 = name
    · simp [h]
    · simp [h, ih]

theorem lookupCol_updateCol_self {α : Type} (cols : List (String × α)) (name : String)
    (f : α → α) :
    lookupCol (updateCol cols name f) name = (lookupCol cols name).map f := by
  induction cols with
  | nil => rfl
  | cons p rest ih =>
    rw [updateCol, List.map_cons]
    by_cases h : p.1 = name
    · simp [lookupCol, h]
    · simp only [if_neg h]
      rw [lookupCol, if_neg h, lookupCol, if_neg h]
      exact ih

theorem lookupCol_updateCol_ne {α : Type} (cols : List (String × α)) (name other : String)
    (f : α → α) (h : name ≠ other) :
    lookupCol (updateCol cols name f) other = lookupCol cols other := by
  induction cols with
  | nil => rfl
  | cons p rest ih =>
    rw [updateCol, List.map_cons]
    by_cases hp : p.1 = name
    · rw [if_pos hp, lookupCol, lookupCol, hp]
      rw [if_neg h, if_neg h]
      exact ih
    · rw [if_neg hp, lookupCol, lookupCol]
      by_cases hpo : p.1 = other
      · simp [hpo]
      · simp only [if_neg hpo]
        exact ih

theorem lookupCol_append_none {α : Type} (cols : List (String × α)) (n name : String)
    (x : α) (h : lookupCol cols name = none) :
    lookupCol (cols ++ [(n, x)]) name = if n = name then some x else none := by
  induction cols with
  | nil => rfl
  | cons p rest ih =>
    rw [lookupCol] at h
    by_cases hp : p.1 = name
    · rw [if_pos hp] at h; cases h
    · rw [if_neg hp] at h
      rw [List.cons_append, lookupCol, if_neg hp]
      exact ih h

theorem lookupCol_append_some {α : Type} (cols : List (String × α)) (l : List (String × α))
    (name : String) (c : α) (h : lookupCol cols name = some c) :
    lookupCol (cols ++ l) name = some c := by
  induction cols with
  | nil => cases h
  | cons p rest ih =>
    rw [lookupCol] at h
    rw [List.cons_append, lookupCol]
    by_cases hp : p.1 = name
    · rw [if_pos hp] at h ⊢; exact h
    · rw [if_neg hp] at h ⊢; exact ih h

theorem addValue_indicators (s : ColumnarStorage) (v : ℚ) (name : String) :
    lookupCol (s.addValue v).indicators name =
      (lookupCol s.indicators name).map
        (fun col => if s.capacity ≤ s.length
          then (fun i => if i < s.length then col i else JSNum.nan) else col) := by
  rw [ColumnarStorage.addValue]
  by_cases hc : s.capacity ≤ s.length
  · simp only [hc, if_true, ColumnarStorage.resize]
    rw [lookupCol_resize_map]
  · simp only [hc, if_false]
    cases h : lookupCol s.indicators name with
    | none => simp [h]
    | some c => simp [h, hc]

theorem addValue_strategies (s : ColumnarStorage) (v : ℚ) :
    (s.addValue v).strategies = s.strategies := by
  rw [ColumnarStorage.addValue]
  by_cases hc : s.capacity ≤ s.length <;> simp [hc, ColumnarStorage.resize]

theorem ensureInd_lookup (s : ColumnarStorage) (n name : String) :
    lookupCol (s.ensureIndicatorColumn n).indicators name =
      match lookupCol s.indicators name with
      | some col => some col
      | none => if n = name ∧ ¬ (lookupCol s.indicators n).isSome
          then some (fun _ => JSNum.nan) else none := by
  rw [ColumnarStorage.ensureIndicatorColumn]
  by_cases hs : (lookupCol s.indicators n).isSome
  · rw [if_pos hs]
    cases h : lookupCol s.indicators name <;> simp [h, hs]
  · rw [if_neg hs]
    show lookupCol (s.indicators ++ [(n, fun _ => JSNum.nan)]) name = _
    cases h : lookupCol s.indicators name with
    | none => rw [lookupCol_append_none _ _ _ _ h]; simp [hs]
    | some c => rw [lookupCol_append_some _ _ _ _ h]

theorem ensureStrat_lookup (s : ColumnarStorage) (n name : String) :
    lookupCol (s.ensureStrategyColumn n).strategies name =
      match lookupCol s.strategies name with
      | some col => some col
      | none => if n = name ∧ ¬ (lookupCol s.strategies n).isSome
          then some (fun _ => none) else none := by
  rw [ColumnarStorage.ensureStrategyColumn]
  by_cases hs : (lookupCol s.strategies n).isSome
  · rw [if_pos hs]
    cases h : lookupCol s.strategies name <;> simp [h, hs]
  · rw [if_neg hs]
    show lookupCol (s.strategies ++ [(n, fun _ => none)]) name = _
    cases h : lookupCol s.strategies name with
    | none => rw [lookupCol_append_none _ _ _ _ h]; simp [hs]
    | some c => rw [lookupCol_append_some _ _ _ _ h]

theorem runOps_ind_unregistered (ops : List StoreOp) (name : String) :
    ∀ s : ColumnarStorage, lookupCol s.indicators name = none →
      (∀ op ∈ ops, op.registersInd name = false) →
      lookupCol (runOps ops s).indicators name = none := by
  induction ops with
  | nil => exact fun s h _ => h
  | cons op rest ih =>
    intro s h hops
    have hop : op.registersInd name = false := hops op (List.mem_cons_self op rest)
    have hstep : lookupCol (op.run s).indicators name = none := by
      cases op with
      | addValue v =>
        rw [StoreOp.run, addValue_indicators, h]
        rfl
      | ensureIndicatorColumn n =>
        have hne : ¬ (n = name) := by simpa [StoreOp.registersInd] using hop
        rw [StoreOp.run, ensureInd_lookup, h]
        simp [hne]
      | setIndicator j n v =>
        have hne : ¬ (n = name) := by simpa [StoreOp.registersInd] using hop
        show lookupCol (s.setIndicator (j : ℤ) n v).indicators name = none
        have hens : lookupCol (s.ensureIndicatorColumn n).indicators name = none := by
          rw [ensureInd_lookup, h]
          simp [hne]
        simp only [ColumnarStorage.setIndicator]
        by_cases hgate : (0 : ℤ) ≤ (if (j : ℤ) < 0
              then ((s.ensureIndicatorColumn n).length : ℤ) + j else (j : ℤ)) ∧
            (if (j : ℤ) < 0 then ((s.ensureIndicatorColumn n).length : ℤ) + j else (j : ℤ)) <
              ((s.ensureIndicatorColumn n).capacity : ℤ)
        · rw [if_pos hgate]
          exact (lookupCol_updateCol_ne (s.ensureIndicatorColumn n).indicators n name
            (fun col i => if i = (if (j : ℤ) < 0
              then ((s.ensureIndicatorColumn n).length : ℤ) + j
              else (j : ℤ)).toNat then v else col i) hne).trans hens
        · rw [if_neg hgate]
          exact hens
      | ensureStrategyColumn n =>
        show lookupCol (s.ensureStrategyColumn n).indicators name = none
        rw [ColumnarStorage.ensureStrategyColumn]
        by_cases hs : (lookupCol s.strategies n).isSome <;> simp [hs, h]
      | setStrategy j n sv =>
        show lookupCol (s.setStrategy (j : ℤ) n sv).indicators name = none
        have hind : (s.ensureStrategyColumn n).indicators = s.indicators := by
          rw [ColumnarStorage.ensureStrategyColumn]
          by_cases hs : (lookupCol s.strategies n).isSome <;> simp [hs]
        simp only [ColumnarStorage.setStrategy]
        by_cases hgate : (0 : ℤ) ≤ (if (j : ℤ) < 0
            then ((s.ensureStrategyColumn n).length : ℤ) + j else (j : ℤ))
        · rw [if_pos hgate]
          show lookupCol (s.ensureStrategyColumn n).indicators name = none
          rw [hind]
          exact h
        · rw [if_neg hgate]
          rw [hind]
          exact h
    exact ih (op.run s) hstep (fun op' hop' => hops op' (List.mem_cons_of_mem op hop'))

theorem ensureInd_lookup_some (s : ColumnarStorage) (n name : String) (c : ℕ → JSNum)
    (h : lookupCol s.indicators name = some c) :
    lookupCol (s.ensureIndicatorColumn n).indicators name = some c := by
  rw [ColumnarStorage.ensureIndicatorColumn]
  by_cases hs : (lookupCol s.indicators n).isSome
  · rw [if_pos hs]; exact h
  · rw [if_neg hs]
    exact lookupCol_append_some _ _ _ _ h

theorem ensureInd_cell (s : ColumnarStorage) (n name : String) (i : ℕ)
    (h : ∀ col, lookupCol s.indicators name = some col → col i = .nan) :
    ∀ col, lookupCol (s.ensureIndicatorColumn n).indicators name = some col →
      col i = .nan := by
  intro col hcol
  cases hl : lookupCol s.indicators name with
  | some c =>
    rw [ensureInd_lookup_some s n name c hl] at hcol
    injection hcol with h2
    subst h2
    exact h _ hl
  | none =>
    rw [ensureInd_lookup, hl] at hcol
    by_cases hcond : n = name ∧ ¬ (lookupCol s.indicators n).isSome
    · rw [if_pos hcond] at hcol
      injection hcol with h2
      subst h2
      rfl
    · rw [if_neg hcond] at hcol
      cases hcol

theorem setIndicator_cell (s : ColumnarStorage) (j i : ℕ) (n name : String) (v : JSNum)
    (hcell : ¬ (j = i ∧ n = name))
    (h : ∀ col, lookupCol s.indicators name = some col → col i = .nan) :
    ∀ col, lookupCol (s.setIndicator (j : ℤ) n v).indicators name = some col →
      col i = .nan := by
  intro col hcol
  have ht : ∀ col, lookupCol (s.ensureIndicatorColumn n).indicators name = some col →
      col i = .nan := ensureInd_cell s n name i h
  simp only [ColumnarStorage.setIndicator] at hcol
  by_cases hgate : (0 : ℤ) ≤ (if (j : ℤ) < 0
        then ((s.ensureIndicatorColumn n).length : ℤ) + j else (j : ℤ)) ∧
      (if (j : ℤ) < 0 then ((s.ensureIndicatorColumn n).length : ℤ) + j else (j : ℤ)) <
        ((s.ensureIndicatorColumn n).capacity : ℤ)
  · rw [if_pos hgate] at hcol
    have hcol' : lookupCol (updateCol (s.ensureIndicatorColumn n).indicators n
        (fun col i' => if i' = (if (j : ℤ) < 0
          then ((s.ensureIndicatorColumn n).length : ℤ) + j
          else (j : ℤ)).toNat then v else col i')) name = some col := hcol
    by_cases hn : n = name
    · subst hn
      rw [lookupCol_updateCol_self] at hcol'
      cases hl : lookupCol (s.ensureIndicatorColumn n).indicators n with
      | none => rw [hl] at hcol'; cases hcol'
      | some c =>
        rw [hl] at hcol'
        have hcc : (fun i' => if i' = (if (j : ℤ) < 0
            then ((s.ensureIndicatorColumn n).length : ℤ) + j
            else (j : ℤ)).toNat then v else c i') = col := by
          have := hcol'
          simp only [Option.map] at this
          injection this
        rw [← hcc]
        have hji : j ≠ i := fun hj => hcell ⟨hj, rfl⟩
        have hjnat : (if (j : ℤ) < 0
            then ((s.ensureIndicatorColumn n).length : ℤ) + (j : ℤ)
            else (j : ℤ)).toNat = j := by
          rw [if_neg (by omega)]
          exact Int.toNat_natCast j
        show (if i = _ then v else c i) = JSNum.nan
        rw [hjnat, if_neg (fun h' => hji h'.symm)]
        exact ht c hl
    · rw [lookupCol_updateCol_ne _ _ _ _ hn] at hcol'
      exact ht col hcol'
  · rw [if_neg hgate] at hcol
    exact ht col hcol

theorem ensureInd_strategies (s : ColumnarStorage) (n : String) :
    (s.ensureIndicatorColumn n).strategies = s.strategies := by
  rw [ColumnarStorage.ensureIndicatorColumn]
  by_cases hs : (lookupCol s.indicators n).isSome <;> simp [hs]

theorem setIndicator_strategies (s : ColumnarStorage) (j : ℤ) (n : String) (v : JSNum) :
    (s.setIndicator j n v).strategies = s.strategies := by
  simp only [ColumnarStorage.setIndicator]
  by_cases hgate : (0 : ℤ) ≤ (if j < 0
        then ((s.ensureIndicatorColumn n).length : ℤ) + j else j) ∧
      (if j < 0 then ((s.ensureIndicatorColumn n).length : ℤ) + j else j) <
        ((s.ensureIndicatorColumn n).capacity : ℤ)
  · rw [if_pos hgate]
    exact ensureInd_strategies s n
  · rw [if_neg hgate]
    exact ensureInd_strategies s n

theorem ensureStrat_lookup_some (s : ColumnarStorage) (n name : String)
    (c : ℕ → Option StrategyValue) (h : lookupCol s.strategies name = some c) :
    lookupCol (s.ensureStrategyColumn n).strategies name = some c := by
  rw [ColumnarStorage.ensureStrategyColumn]
  by_cases hs : (lookupCol s.strategies n).isSome
  · rw [if_pos hs]; exact h
  · rw [if_neg hs]
    exact lookupCol_append_some _ _ _ _ h

theorem ensureStrat_cell (s : ColumnarStorage) (n name : String) (i : ℕ)
    (h : ∀ col, lookupCol s.strategies name = some col → col i = none) :
    ∀ col, lookupCol (s.ensureStrategyColumn n).strategies name = some col →
      col i = none := by
  intro col hcol
  cases hl : lookupCol s.strategies name with
  | some c =>
    rw [ensureStrat_lookup_some s n name c hl] at hcol
    injection hcol with h2
    subst h2
    exact h _ hl
  | none =>
    rw [ensureStrat_lookup, hl] at hcol
    by_cases hcond : n = name ∧ ¬ (lookupCol s.strategies n).isSome
    · rw [if_pos hcond] at hcol
      injection hcol with h2
      subst h2
      rfl
    · rw [if_neg hcond] at hcol
      cases hcol

theorem setStrategy_cell (s : ColumnarStorage) (j i : ℕ) (n name : String)
    (sv : StrategyValue) (hcell : ¬ (j = i ∧ n = name))
    (h : ∀ col, lookupCol s.strategies name = some col → col i = none) :
    ∀ col, lookupCol (s.setStrategy (j : ℤ) n sv).strategies name = some col →
      col i = none := by
  intro col hcol
  have ht : ∀ col, lookupCol (s.ensureStrategyColumn n).strategies name = some col →
      col i = none := ensureStrat_cell s n name i h
  simp only [ColumnarStorage.setStrategy] at hcol
  by_cases hgate : (0 : ℤ) ≤ (if (j : ℤ) < 0
      then ((s.ensureStrategyColumn n).length : ℤ) + j else (j : ℤ))
  · rw [if_pos hgate] at hcol
    have hcol' : lookupCol (updateCol (s.ensureStrategyColumn n).strategies n
        (fun col i' => if i' = (if (j : ℤ) < 0
          then ((s.ensureStrategyColumn n).length : ℤ) + j
          else (j : ℤ)).toNat then some sv else col i')) name = some col := hcol
    by_cases hn : n = name
    · subst hn
      rw [lookupCol_updateCol_self] at hcol'
      cases hl : lookupCol (s.ensureStrategyColumn n).strategies n with
      | none => rw [hl] at hcol'; cases hcol'
      | some c =>
        rw [hl] at hcol'
        have hcc : (fun i' => if i' = (if (j : ℤ) < 0
            then ((s.ensureStrategyColumn n).length : ℤ) + j
            else (j : ℤ)).toNat then some sv else c i') = col := by
          have := hcol'
          simp only [Option.map] at this
          injection this
        rw [← hcc]
        have hji : j ≠ i := fun hj => hcell ⟨hj, rfl⟩
        have hjnat : (if (j : ℤ) < 0
            then ((s.ensureStrategyColumn n).length : ℤ) + (j : ℤ)
            else (j : ℤ)).toNat = j := by
          rw [if_neg (by omega)]
          exact Int.toNat_natCast j
        show (if i = _ then some sv else c i) = none
        rw [hjnat, if_neg (fun h' => hji h'.symm)]
        exact ht c hl
    · rw [lookupCol_updateCol_ne _ _ _ _ hn] at hcol'
      exact ht col hcol'
  · rw [if_neg hgate] at hcol
    exact ht col hcol

theorem ensureStrat_indicators (s : ColumnarStorage) (n : String) :
    (s.ensureStrategyColumn n).indicators = s.indicators := by
  rw [ColumnarStorage.ensureStrategyColumn]
  by_cases hs : (lookupCol s.strategies n).isSome <;> simp [hs]

theorem setStrategy_indicators (s : ColumnarStorage) (j : ℤ) (n : String)
    (sv : StrategyValue) :
    (s.setStrategy j n sv).indicators = s.indicators := by
  simp only [ColumnarStorage.setStrategy]
  by_cases hgate : (0 : ℤ) ≤ (if j < 0
      then ((s.ensureStrategyColumn n).length : ℤ) + j else j)
  · rw [if_pos hgate]
    exact ensureStrat_indicators s n
  · rw [if_neg hgate]
    exact ensureStrat_indicators s n

theorem runOps_indCell_nan (ops : List StoreOp) (i : ℕ) (name : String) :
    ∀ s : ColumnarStorage,
      (∀ col, lookupCol s.indicators name = some col → col i = .nan) →
      (∀ op ∈ ops, op.setsIndCell i name = false) →
      ∀ col, lookupCol (runOps ops s).indicators name = some col → col i = .nan := by
  induction ops with
  | nil => exact fun s h _ => h
  | cons op rest ih =>
    intro s h hops
    have hop : op.setsIndCell i name = false := hops op (List.mem_cons_self op rest)
    refine ih (op.run s) ?_ (fun op' hop' => hops op' (List.mem_cons_of_mem op hop'))
    cases op with
    | addValue v =>
      intro col hcol
      rw [StoreOp.run, addValue_indicators] at hcol
      cases hl : lookupCol s.indicators name with
      | none => rw [hl] at hcol; cases hcol
      | some c =>
        rw [hl] at hcol
        have hcc : (if s.capacity ≤ s.length
            then (fun i' => if i' < s.length then c i' else JSNum.nan) else c) = col := by
          have := hcol
          simp only [Option.map] at this
          injection this
        rw [← hcc]
        by_cases hc : s.capacity ≤ s.length
        · rw [if_pos hc]
          show (if i < s.length then c i else JSNum.nan) = JSNum.nan
          by_cases hi : i < s.length
          · rw [if_pos hi]; exact h c hl
          · rw [if_neg hi]
        · rw [if_neg hc]
          exact h c hl
    | ensureIndicatorColumn n =>
      exact ensureInd_cell s n name i h
    | setIndicator j n v =>
      have hcell : ¬ (j = i ∧ n = name) := by
        intro hc
        rw [StoreOp.setsIndCell] at hop
        simp [hc.1, hc.2] at hop
      exact setIndicator_cell s j i n name v hcell h
    | ensureStrategyColumn n =>
      intro col hcol
      rw [StoreOp.run, ensureStrat_indicators] at hcol
      exact h col hcol
    | setStrategy j n sv =>
      intro col hcol
      rw [StoreOp.run, setStrategy_indicators] at hcol
      exact h col hcol

theorem addValue_strategies_lookup (s : ColumnarStorage) (v : ℚ) (name : String) :
    lookupCol (s.addValue v).strategies name = lookupCol s.strategies name := by
  rw [addValue_strategies]

theorem runOps_stratCell_none (ops : List StoreOp) (i : ℕ) (name : String) :
    ∀ s : ColumnarStorage,
      (∀ col, lookupCol s.strategies name = some col → col i = none) →
      (∀ op ∈ ops, op.setsStratCell i name = false) →
      ∀ col, lookupCol (runOps ops s).strategies name = some col → col i = none := by
  induction ops with
  | nil => exact fun s h _ => h
  | cons op rest ih =>
    intro s h hops
    have hop : op.setsStratCell i name = false := hops op (List.mem_cons_self op rest)
    refine ih (op.run s) ?_ (fun op' hop' => hops op' (List.mem_cons_of_mem op hop'))
    cases op with
    | addValue v =>
      intro col hcol
      rw [StoreOp.run, addValue_strategies_lookup] at hcol
      exact h col hcol
    | ensureIndicatorColumn n =>
      intro col hcol
      rw [StoreOp.run, ensureInd_strategies] at hcol
      exact h col hcol
    | setIndicator j n v =>
      intro col hcol
      rw [StoreOp.run, setIndicator_strategies] at hcol
      exact h col hcol
    | ensureStrategyColumn n =>
      exact ensureStrat_cell s n name i h
    | setStrategy j n sv =>
      have hcell : ¬ (j = i ∧ n = name) := by
        intro hc
        rw [StoreOp.setsStratCell] at hop
        simp [hc.1, hc.2] at hop
      exact setStrategy_cell s j i n name sv hcell h

theorem ensureInd_len_cap (s : ColumnarStorage) (n : String) :
    (s.ensureIndicatorColumn n).length = s.length ∧
      (s.ensureIndicatorColumn n).capacity = s.capacity := by
  rw [ColumnarStorage.ensureIndicatorColumn]
  by_cases hs : (lookupCol s.indicators n).isSome <;> simp [hs]

theorem ensureStrat_len_cap (s : ColumnarStorage) (n : String) :
    (s.ensureStrategyColumn n).length = s.length ∧
      (s.ensureStrategyColumn n).capacity = s.capacity := by
  rw [ColumnarStorage.ensureStrategyColumn]
  by_cases hs : (lookupCol s.strategies n).isSome <;> simp [hs]

theorem op_run_cap (op : StoreOp) (s : ColumnarStorage)
    (h1 : s.length ≤ s.capacity) (h2 : 0 < s.capacity) :
    (op.run s).length ≤ (op.run s).capacity ∧ 0 < (op.run s).capacity := by
  cases op with
  | addValue v =>
    simp only [StoreOp.run, ColumnarStorage.addValue]
    by_cases hc : s.capacity ≤ s.length
    · simp only [hc, if_true, ColumnarStorage.resize]
      refine ⟨?_, ?_⟩
      · show s.length + 1 ≤ 2 * s.capacity
        omega
      · show 0 < 2 * s.capacity
        omega
    · simp only [hc, if_false]
      refine ⟨?_, ?_⟩
      · show s.length + 1 ≤ s.capacity
        omega
      · exact h2
  | ensureIndicatorColumn n =>
    have he := ensureInd_len_cap s n
    rw [StoreOp.run, he.1, he.2]
    exact ⟨h1, h2⟩
  | setIndicator j n v =>
    have he := ensureInd_len_cap s n
    rw [StoreOp.run]
    simp only [ColumnarStorage.setIndicator]
    by_cases hgate : (0 : ℤ) ≤ (if (j : ℤ) < 0
          then ((s.ensureIndicatorColumn n).length : ℤ) + j else (j : ℤ)) ∧
        (if (j : ℤ) < 0 then ((s.ensureIndicatorColumn n).length : ℤ) + j else (j : ℤ)) <
          ((s.ensureIndicatorColumn n).capacity : ℤ)
    · rw [if_pos hgate]
      show (s.ensureIndicatorColumn n).length ≤ (s.ensureIndicatorColumn n).capacity ∧
        0 < (s.ensureIndicatorColumn n).capacity
      rw [he.1, he.2]
      exact ⟨h1, h2⟩
    · rw [if_neg hgate, he.1, he.2]
      exact ⟨h1, h2⟩
  | ensureStrategyColumn n =>
    have he := ensureStrat_len_cap s n
    rw [StoreOp.run, he.1, he.2]
    exact ⟨h1, h2⟩
  | setStrategy j n sv =>
    have he := ensureStrat_len_cap s n
    rw [StoreOp.run]
    simp only [ColumnarStorage.setStrategy]
    by_cases hgate : (0 : ℤ) ≤ (if (j : ℤ) < 0
        then ((s.ensureStrategyColumn n).length : ℤ) + j else (j : ℤ))
    · rw [if_pos hgate]
      show (s.ensureStrategyColumn n).length ≤ (s.ensureStrategyColumn n).capacity ∧
        0 < (s.ensureStrategyColumn n).capacity
      rw [he.1, he.2]
      exact ⟨h1, h2⟩
    · rw [if_neg hgate, he.1, he.2]
      exact ⟨h1, h2⟩

theorem runOps_cap (ops : List StoreOp) :
    ∀ s : ColumnarStorage, s.length ≤ s.capacity → 0 < s.capacity →
      (runOps ops s).length ≤ (runOps ops s).capacity ∧
        0 < (runOps ops s).capacity := by
  induction ops with
  | nil => exact fun s h1 h2 => ⟨h1, h2⟩
  | cons op rest ih =>
    intro s h1 h2
    have h := op_run_cap op s h1 h2
    exact ih (op.run s) h.1 h.2

/-- C9: sentinel reads of the columnar store, over every trace of store
operations from the empty store.  Reading an indicator column that no
operation ever registered returns NaN at every index; reading an indicator
cell in range of the current length that no operation ever wrote returns NaN;
reading such a strategy cell returns the explicit no-value sentinel `none`
(JS `undefined` — a different type from NaN, as positions are structured);
and out-of-range access never throws (every read below is a total function):
an out-of-range indicator read yields a sentinel (`undefined` for a present
typed-array column, NaN for a missing one) and a negatively-resolved strategy
read yields `undefined`. -/
theorem columnarStorage_sentinel_reads (ops : List StoreOp) :
    (∀ name : String, (∀ op ∈ ops, op.registersInd name = false) →
      ∀ i : ℤ, (runOps ops ColumnarStorage.empty).getIndicator i name = some .nan) ∧
    (∀ (name : String) (i : ℕ), i < (runOps ops ColumnarStorage.empty).length →
      (∀ op ∈ ops, op.setsIndCell i name = false) →
      (runOps ops ColumnarStorage.empty).getIndicator (i : ℤ) name = some .nan) ∧
    (∀ (name : String) (i : ℕ), i < (runOps ops ColumnarStorage.empty).length →
      (∀ op ∈ ops, op.setsStratCell i name = false) →
      (runOps ops ColumnarStorage.empty).getStrategy (i : ℤ) name = none) ∧
    (∀ (name : String) (i : ℤ),
      ((if i < 0 then ((runOps ops ColumnarStorage.empty).length : ℤ) + i else i) < 0 ∨
        ((runOps ops ColumnarStorage.empty).capacity : ℤ) ≤
          (if i < 0 then ((runOps ops ColumnarStorage.empty).length : ℤ) + i else i)) →
      (runOps ops ColumnarStorage.empty).getIndicator i name = none ∨
      (runOps ops ColumnarStorage.empty).getIndicator i name = some .nan) ∧
    (∀ (name : String) (i : ℤ),
      (if i < 0 then ((runOps ops ColumnarStorage.empty).length : ℤ) + i else i) < 0 →
      (runOps ops ColumnarStorage.empty).getStrategy i name = none) := by
  have hcap := runOps_cap ops ColumnarStorage.empty (Nat.zero_le _) (by decide)
  refine ⟨?_, ?_, ?_, ?_, ?_⟩
  · intro name hops i
    have hnone : lookupCol (runOps ops ColumnarStorage.empty).indicators name = none :=
      runOps_ind_unregistered ops name ColumnarStorage.empty rfl hops
    simp only [ColumnarStorage.getIndicator]
    rw [hnone]
  · intro name i hi hops
    have hcell := runOps_indCell_nan ops i name ColumnarStorage.empty
      (fun col hcol => by cases hcol) hops
    simp only [ColumnarStorage.getIndicator]
    have hactual : (if (i : ℤ) < 0
        then (((runOps ops ColumnarStorage.empty).length : ℤ)) + i else (i : ℤ)) =
        (i : ℤ) := if_neg (by omega)
    rw [hactual]
    cases hl : lookupCol (runOps ops ColumnarStorage.empty).indicators name with
    | none => rfl
    | some col =>
      show (if 0 ≤ (i : ℤ) ∧
          (i : ℤ) < ((runOps ops ColumnarStorage.empty).capacity : ℤ)
          then some (col ((i : ℤ)).toNat) else none) = some JSNum.nan
      have hic : (i : ℤ) < ((runOps ops ColumnarStorage.empty).capacity : ℤ) := by
        have := hcap.1
        omega
      rw [if_pos ⟨by omega, hic⟩, Int.toNat_natCast]
      exact congrArg some (hcell col hl)
  · intro name i hi hops
    have hcell := runOps_stratCell_none ops i name ColumnarStorage.empty
      (fun col hcol => by cases hcol) hops
    simp only [ColumnarStorage.getStrategy]
    have hactual : (if (i : ℤ) < 0
        then (((runOps ops ColumnarStorage.empty).length : ℤ)) + i else (i : ℤ)) =
        (i : ℤ) := if_neg (by omega)
    rw [hactual]
    cases hl : lookupCol (runOps ops ColumnarStorage.empty).strategies name with
    | none => rfl
    | some col =>
      show (if 0 ≤ (i : ℤ) then col ((i : ℤ)).toNat else none) = none
      rw [if_pos (by omega), Int.toNat_natCast]
      exact hcell col hl
  · intro name i hoor
    simp only [ColumnarStorage.getIndicator]
    cases hl : lookupCol (runOps ops ColumnarStorage.empty).indicators name with
    | none => exact Or.inr rfl
    | some col =>
      refine Or.inl ?_
      show (if 0 ≤ (if i < 0
            then ((runOps ops ColumnarStorage.empty).length : ℤ) + i else i) ∧
          (if i < 0 then ((runOps ops ColumnarStorage.empty).length : ℤ) + i else i) <
            ((runOps ops ColumnarStorage.empty).capacity : ℤ)
          then some (col (if i < 0
            then ((runOps ops ColumnarStorage.empty).length : ℤ) + i else i).toNat)
          else none) = none
      refine if_neg ?_
      rintro ⟨h1, h2⟩
      rcases hoor with h | h <;> omega
  · intro name i hneg
    simp only [ColumnarStorage.getStrategy]
    cases hl : lookupCol (runOps ops ColumnarStorage.empty).strategies name with
    | none => rfl
    | some col =>
      show (if 0 ≤ (if i < 0
            then ((runOps ops ColumnarStorage.empty).length : ℤ) + i else i)
          then col (if i < 0
            then ((runOps ops ColumnarStorage.empty).length : ℤ) + i else i).toNat
          else none) = none
      refine if_neg ?_
      intro h1
      omega

theorem columnarStorage_sentinel_reads_witness :
    (runOps [.addValue 1, .ensureIndicatorColumn ema12Name,
        .ensureStrategyColumn ema12Name] ColumnarStorage.empty).getIndicator
      ((0 : ℕ) : ℤ) ema26Name = some .nan ∧
    (runOps [.addValue 1, .ensureIndicatorColumn ema12Name,
        .ensureStrategyColumn ema12Name] ColumnarStorage.empty).getIndicator
      ((0 : ℕ) : ℤ) ema12Name = some .nan ∧
    (runOps [.addValue 1, .ensureIndicatorColumn ema12Name,
        .ensureStrategyColumn ema12Name] ColumnarStorage.empty).getStrategy
      ((0 : ℕ) : ℤ) ema12Name = none ∧
    ((runOps [.addValue 1, .ensureIndicatorColumn ema12Name,
        .ensureStrategyColumn ema12Name] ColumnarStorage.empty).getIndicator
      (-5) ema12Name = none ∨
     (runOps [.addValue 1, .ensureIndicatorColumn ema12Name,
        .ensureStrategyColumn ema12Name] ColumnarStorage.empty).getIndicator
      (-5) ema12Name = some .nan) ∧
    (runOps [.addValue 1, .ensureIndicatorColumn ema12Name,
        .ensureStrategyColumn ema12Name] ColumnarStorage.empty).getStrategy
      (-5) ema12Name = none := by
  have h := columnarStorage_sentinel_reads
    [.addValue 1, .ensureIndicatorColumn ema12Name, .ensureStrategyColumn ema12Name]
  exact ⟨h.1 ema26Name (by decide) ((0 : ℕ) : ℤ),
    h.2.1 ema12Name 0 (by decide) (by decide),
    h.2.2.1 ema12Name 0 (by decide) (by decide),
    h.2.2.2.1 ema12Name (-5) (by decide),
    h.2.2.2.2 ema12Name (-5) (by decide)⟩

theorem batchCol_length {V : Type} (ind : IndicatorModel V) (rows : List V) :
    (batchCol ind rows).length = rows.length := by
  rw [batchCol, List.length_map, List.length_range]

theorem batchCol_append {V : Type} (ind : IndicatorModel V) (rows : List V) (v : V) :
    batchCol ind (rows ++ [v]) = batchCol ind rows ++ [ind.full (rows ++ [v])] := by
  rw [batchCol, batchCol, List.length_append, List.length_singleton, List.range_succ,
    List.map_append, List.map_singleton]
  congr 1
  · apply List.map_congr_left
    intro i hi
    rw [List.mem_range] at hi
    rw [List.take_append_of_le_length (by omega)]
  · rw [List.take_of_length_le (by rw [List.length_append, List.length_singleton])]

theorem batchCol_getLast {V : Type} (ind : IndicatorModel V) (rows : List V)
    (hne : rows ≠ []) :
    (batchCol ind rows).getLast? = some (ind.full rows) := by
  obtain ⟨l, x, rfl⟩ : ∃ l x, rows = l ++ [x] :=
    ⟨rows.dropLast, rows.getLast hne, (List.dropLast_append_getLast hne).symm⟩
  rw [batchCol_append, List.getLast?_concat]

theorem streamIndValue_batch {V : Type} (ind : IndicatorModel V) (rows : List V) (v : V)
    (hagree : IncrAgrees ind) :
    streamIndValue ind (rows ++ [v]) v (batchCol ind rows).getLast? =
      ind.full (rows ++ [v]) := by
  cases hincr : ind.incr with
  | none =>
    cases hlast : (batchCol ind rows).getLast? <;> simp [streamIndValue, hincr, hlast]
  | some f =>
    cases hlast : (batchCol ind rows).getLast? with
    | none => simp [streamIndValue, hincr, hlast]
    | some prev =>
      simp only [streamIndValue, hincr, hlast]
      by_cases hrows : rows = []
      · subst hrows
        rw [batchCol] at hlast
        cases hlast
      · have hprev : prev = ind.full rows := by
          rw [batchCol_getLast ind rows hrows] at hlast
          injection hlast with h2
          exact h2.symm
        by_cases hnan : prev = .nan
        · rw [if_neg (by simp [hnan])]
        · have hlen : 1 < (rows ++ [v]).length := by
            rw [List.length_append, List.length_singleton]
            have := List.length_pos.mpr hrows
            omega
          rw [if_pos ⟨hlen, hnan⟩, hprev]
          exact hagree f rows v hincr hrows (hprev ▸ hnan)

theorem zip_map_snd {α β γ : Type} (l : List α) (g : α → β) (F : α × β → γ) :
    (l.zip (l.map g)).map F = l.map (fun a => F (a, g a)) := by
  induction l with
  | nil => rfl
  | cons a t ih => simp [ih]

theorem getD_append_length {α : Type} (l : List α) (x d : α) :
    (l ++ [x]).getD l.length d = x := by
  induction l with
  | nil => rfl
  | cons a t ih => simpa using ih

theorem getD_append_left {α : Type} (l lr : List α) (j : ℕ) (d : α) (h : j < l.length) :
    (l ++ lr).getD j d = l.getD j d := by
  rw [List.getD_eq_getElem?_getD, List.getD_eq_getElem?_getD, List.getElem?_append,
    if_pos h]

theorem getLast?_getD_cons {α : Type} (a : α) (t : List α) (x : α) :
    (a :: t).getLast?.getD x = t.getLast?.getD a := by
  cases t with
  | nil => rfl
  | cons b t' =>
    rw [List.getLast?_cons_cons]
    cases h : (b :: t').getLast? with
    | none =>
      rw [List.getLast?_eq_none_iff] at h
      cases h
    | some y => rfl

theorem preparePoss_append {V : Type}
    (step : V → List JSNum → TradePosition → TradePosition)
    (readings : ℕ → List JSNum) (l : List V) (v : V) :
    ∀ (i : ℕ) (last : TradePosition),
      preparePoss step readings (l ++ [v]) i last =
        preparePoss step readings l i last ++
          [TradePosition.update ((preparePoss step readings l i last).getLast?.getD last)
            (step v (readings (i + l.length))
              ((preparePoss step readings l i last).getLast?.getD last))] := by
  induction l with
  | nil =>
    intro i last
    simp [preparePoss]
  | cons w t ih =>
    intro i last
    rw [List.cons_append]
    simp only [preparePoss]
    rw [ih]
    rw [List.cons_append]
    have hlen : i + 1 + t.length = i + (w :: t).length := by
      rw [List.length_cons]
      omega
    rw [hlen, getLast?_getD_cons]

theorem preparePoss_congr {V : Type}
    (step : V → List JSNum → TradePosition → TradePosition)
    (r1 r2 : ℕ → List JSNum) (l : List V) :
    ∀ (i : ℕ) (last : TradePosition),
      (∀ j, i ≤ j → j < i + l.length → r1 j = r2 j) →
      preparePoss step r1 l i last = preparePoss step r2 l i last := by
  induction l with
  | nil => intro i last _; rfl
  | cons w t ih =>
    intro i last h
    simp only [preparePoss]
    have hi : r1 i = r2 i := h i le_rfl (by rw [List.length_cons]; omega)
    rw [hi, ih (i + 1) _ (fun j hj1 hj2 => h j (by omega)
      (by rw [List.length_cons]; omega))]

theorem streamRun_eq_prepareRun {V : Type} (inds : List (IndicatorModel V))
    (step : V → List JSNum → TradePosition → TradePosition) (rows : List V)
    (hagree : ∀ ind ∈ inds, IncrAgrees ind) :
    streamRun inds step rows = prepareRun inds step rows := by
  induction rows using List.reverseRecOn with
  | nil =>
    rw [streamRun, List.foldl_nil, prepareRun]
    have hcols : inds.map (fun _ : IndicatorModel V => ([] : List JSNum)) =
        inds.map (fun ind => batchCol ind []) :=
      List.map_congr_left (fun ind _ => rfl)
    rw [hcols]
    rfl
  | append_singleton rows v ih =>
    rw [streamRun, List.foldl_append, List.foldl_cons, List.foldl_nil, ← streamRun, ih]
    have hcols : (inds.zip (inds.map (fun ind => batchCol ind rows))).map
        (fun pc => pc.2 ++ [streamIndValue pc.1 (rows ++ [v]) v pc.2.getLast?]) =
        inds.map (fun ind => batchCol ind (rows ++ [v])) := by
      rw [zip_map_snd]
      apply List.map_congr_left
      intro ind hind
      rw [streamIndValue_batch ind rows v (hagree ind hind), batchCol_append]
    simp only [datasetAdd, prepareRun]
    rw [hcols]
    have hne : rows ++ [v] ≠ [] := by simp
    have hread : (inds.map (fun ind => batchCol ind (rows ++ [v]))).map
        (fun c => c.getLast?.getD .nan) =
        (inds.map (fun ind => batchCol ind (rows ++ [v]))).map
        (fun c => c.getD rows.length .nan) := by
      rw [List.map_map, List.map_map]
      apply List.map_congr_left
      intro ind _
      show (batchCol ind (rows ++ [v])).getLast?.getD .nan =
        (batchCol ind (rows ++ [v])).getD rows.length .nan
      rw [batchCol_getLast ind (rows ++ [v]) hne, batchCol_append,
        ← batchCol_length ind rows, getD_append_length]
      rfl
    have hpre : preparePoss step
        (fun i => (inds.map (fun ind => batchCol ind (rows ++ [v]))).map
          (fun c => c.getD i .nan)) rows 0 ⟨.idle, []⟩ =
        preparePoss step
        (fun i => (inds.map (fun ind => batchCol ind rows)).map
          (fun c => c.getD i .nan)) rows 0 ⟨.idle, []⟩ := by
      apply preparePoss_congr
      intro j _ hj2
      rw [List.map_map, List.map_map]
      apply List.map_congr_left
      intro ind _
      show (batchCol ind (rows ++ [v])).getD j .nan = (batchCol ind rows).getD j .nan
      rw [batchCol_append, getD_append_left _ _ _ _ (by rw [batchCol_length]; omega)]
    rw [preparePoss_append, hpre]
    rw [Nat.zero_add]
    rw [← hread]

/-- C1: batch/streaming equivalence.  For every row sequence, every list of
registered indicators satisfying the incremental-update contract (the spec's
"must agree" requirement on `incremental`), and every registered strategy
step, performing the streaming appends (`Dataset.add` once per row) produces
indicator columns and a stored position column equal — exactly, in the exact
rational model, which subsumes the 1e-9 tolerance — to those produced by one
batch preparation (`Dataset.prepare` over `Indicator.spread`) of the same
rows. -/
theorem dataset_stream_batch_equivalence {V : Type} (inds : List (IndicatorModel V))
    (step : V → List JSNum → TradePosition → TradePosition) (rows : List V)
    (hagree : ∀ ind ∈ inds, IncrAgrees ind) :
    (streamRun inds step rows).cols = (prepareRun inds step rows).cols ∧
    (streamRun inds step rows).poss = (prepareRun inds step rows).poss ∧
    (streamRun inds step rows).rows = (prepareRun inds step rows).rows := by
  rw [streamRun_eq_prepareRun inds step rows hagree]
  exact ⟨rfl, rfl, rfl⟩

theorem dataset_stream_batch_equivalence_witness :
    (streamRun [⟨fun _ => .num 7, none⟩, ⟨fun l => .num l.sum,
        some (fun prev v _ => jsAdd prev (.num v))⟩]
      (fun _ r _ => ⟨.entry, [(.entryPrice, .numv 1)]⟩) [(1 : ℚ), 2, 3]).cols =
    (prepareRun [⟨fun _ => .num 7, none⟩, ⟨fun l => .num l.sum,
        some (fun prev v _ => jsAdd prev (.num v))⟩]
      (fun _ r _ => ⟨.entry, [(.entryPrice, .numv 1)]⟩) [(1 : ℚ), 2, 3]).cols ∧
    (streamRun [⟨fun _ => .num 7, none⟩, ⟨fun l => .num l.sum,
        some (fun prev v _ => jsAdd prev (.num v))⟩]
      (fun _ r _ => ⟨.entry, [(.entryPrice, .numv 1)]⟩) [(1 : ℚ), 2, 3]).poss =
    (prepareRun [⟨fun _ => .num 7, none⟩, ⟨fun l => .num l.sum,
        some (fun prev v _ => jsAdd prev (.num v))⟩]
      (fun _ r _ => ⟨.entry, [(.entryPrice, .numv 1)]⟩) [(1 : ℚ), 2, 3]).poss := by
  have h := dataset_stream_batch_equivalence (V := ℚ)
    [⟨fun _ => .num 7, none⟩, ⟨fun l => .num l.sum,
        some (fun prev v _ => jsAdd prev (.num v))⟩]
    (fun _ r _ => ⟨.entry, [(.entryPrice, .numv 1)]⟩) [(1 : ℚ), 2, 3] ?_
  · exact ⟨h.1, h.2.1⟩
  · intro ind hind
    rw [List.mem_cons, List.mem_singleton] at hind
    rcases hind with rfl | rfl
    · intro f p v hf
      exact absurd hf (by simp)
    · intro f p v hf hp hnan
      injection hf with hf2
      subst hf2
      show jsAdd (JSNum.num p.sum) (JSNum.num v) = JSNum.num (p ++ [v]).sum
      rw [jsAdd, List.sum_append, List.sum_singleton]

end Quantomate
